import Mathlib

/-!
Verification of the rtlicious RTLIL text parser.

The Rust source is a nom-based recursive-descent parser.  We embed it
shallowly: a parser is a function from the remaining input (a list of
characters) to a `PResult`, which mirrors nom's four-way outcome:
`ok rest value`, a recoverable error `err pos` (nom `Err::Error`, where
`pos` is the remaining input at the failure site), an unrecoverable
`fail pos` (nom `Err::Failure`), and `panic` for a Rust panic
(`unwrap` on integer overflow, `unimplemented!` on a bit-width
mismatch).  Recursive grammar productions are defined with an explicit
fuel parameter; the exported wrappers instantiate the fuel with
`input.length + 1`, which is always sufficient because every recursive
entry first consumes at least one character.
-/

namespace Rtlicious

/-- Outcome of running a parser: mirrors nom's `IResult` plus Rust panics. -/
inductive PResult (α : Type) where
  | ok    : List Char → α → PResult α
  | err   : List Char → PResult α
  | fail  : List Char → PResult α
  | panic : PResult α
deriving DecidableEq

/-- A parser over character lists (shallow embedding of a nom parser on `Span`). -/
abbrev P (α : Type) : Type := List Char → PResult α

/-- Sequencing of parsers: errors, failures and panics propagate. -/
def pbind {α β : Type} (p : P α) (f : α → P β) : P β := fun input =>
  match p input with
  | .ok rest a => f a rest
  | .err e => .err e
  | .fail e => .fail e
  | .panic => .panic

/-- The parser that consumes nothing and returns `a`. -/
def ppure {α : Type} (a : α) : P α := fun input => .ok input a

instance : Monad P where
  pure := ppure
  bind := pbind

/-- A parser that models a Rust panic (used for `unwrap`/`unimplemented!`). -/
def pAbort {α : Type} : P α := fun _ => .panic

/-- nom `alt` for two branches: on a recoverable error of `p`, try `q`. -/
def por {α : Type} (p q : P α) : P α := fun input =>
  match p input with
  | .err _ => q input
  | r => r

/-- nom `map`. -/
def pmap {α β : Type} (f : α → β) (p : P α) : P β := fun input =>
  match p input with
  | .ok rest a => .ok rest (f a)
  | .err e => .err e
  | .fail e => .fail e
  | .panic => .panic

/-- nom `opt`: a recoverable error yields `none` without consuming. -/
def popt {α : Type} (p : P α) : P (Option α) := fun input =>
  match p input with
  | .ok rest a => .ok rest (some a)
  | .err _ => .ok input none
  | .fail e => .fail e
  | .panic => .panic

/-- nom `verify`: accept the result only if the predicate holds. -/
def pverify {α : Type} (p : P α) (pred : α → Bool) : P α := fun input =>
  match p input with
  | .ok rest a => if pred a then .ok rest a else .err input
  | r => r

/-- Match a literal prefix, returning the remainder on success. -/
def stripPre : List Char → List Char → Option (List Char)
  | [], rest => some rest
  | _ :: _, [] => none
  | c :: s, d :: rest => if c = d then stripPre s rest else none

/-- nom `tag`: consume exactly the given literal. -/
def tagP (s : List Char) : P (List Char) := fun input =>
  match stripPre s input with
  | some rest => .ok rest s
  | none => .err input

/-- nom `char`: consume exactly the given character. -/
def charP (c : Char) : P Char := fun input =>
  match input with
  | d :: rest => if d = c then .ok rest c else .err input
  | [] => .err input

/-- nom `one_of`: consume one character drawn from the given set. -/
def one_of (s : List Char) : P Char := fun input =>
  match input with
  | c :: rest => if s.contains c then .ok rest c else .err input
  | [] => .err input

/-- nom `take_while`: consume the longest (possibly empty) matching run. -/
def take_while (f : Char → Bool) : P (List Char) := fun input =>
  .ok (input.dropWhile f) (input.takeWhile f)

/-- nom `take_while1`: like `take_while` but the run must be non-empty. -/
def take_while1 (f : Char → Bool) : P (List Char) := fun input =>
  match input.takeWhile f with
  | [] => .err input
  | l => .ok (input.dropWhile f) l

/-- nom `take_while_m_n`: between `m` and `n` matching characters. -/
def take_while_m_n (m n : Nat) (f : Char → Bool) : P (List Char) := fun input =>
  let t := (input.takeWhile f).take n
  if t.length < m then .err input else .ok (input.drop t.length) t

/-- nom `value(v, p)`: run `p`, return the fixed value `v`. -/
def pvalue {α β : Type} (v : β) (p : P α) : P β := pmap (fun _ => v) p

/-- nom `preceded`. -/
def preceded {α β : Type} (p : P α) (q : P β) : P β := do
  let _ ← p
  q

/-- nom `terminated`. -/
def terminated {α β : Type} (p : P α) (q : P β) : P α := do
  let a ← p
  let _ ← q
  pure a

/-- nom `delimited`. -/
def delimited {α β γ : Type} (p : P α) (q : P β) (r : P γ) : P β := do
  let _ ← p
  let b ← q
  let _ ← r
  pure b

/-- Fueled body of nom `many0`.  nom's `many0` returns an error when the
inner parser succeeds without consuming (its infinite-loop guard); the
guard here triggers whenever the remainder did not get shorter, which
coincides with nom's check because every parser in this development
returns a suffix of its input.  With the guard each iteration consumes at
least one character, so fuel `input.length + 1` (supplied by `many0`)
makes the fuel irrelevant. -/
def many0F {α : Type} (p : P α) : Nat → P (List α)
  | 0 => fun input => .err input
  | f + 1 => fun input =>
    match p input with
    | .err _ => .ok input []
    | .fail e => .fail e
    | .panic => .panic
    | .ok rest a =>
      if input.length ≤ rest.length then .err input
      else
        match many0F p f rest with
        | .ok r l => .ok r (a :: l)
        | .err e => .err e
        | .fail e => .fail e
        | .panic => .panic

/-- nom `many0`. -/
def many0 {α : Type} (p : P α) : P (List α) := fun input =>
  many0F p (input.length + 1) input

/-- nom `many1`: one mandatory parse followed by a `many0`-style loop. -/
def many1 {α : Type} (p : P α) : P (List α) := fun input =>
  match p input with
  | .ok rest a => pmap (fun l => a :: l) (many0 p) rest
  | .err e => .err e
  | .fail e => .fail e
  | .panic => .panic

/-! ### Lexical layer (`characters.rs`, `string.rs`) -/

/-- `characters::is_sep`: ASCII space or tab. -/
def is_sep (c : Char) : Bool := c = ' ' || c = '\t'

/-- `characters::sep`: one or more separator characters. -/
def sep : P Unit := do
  let _ ← take_while1 is_sep
  pure ()

/-- A character usable in identifiers: any character above ASCII space. -/
def nonwsB (c : Char) : Bool := ' ' < c

/-- `string::comment`: `#` up to and including its own line terminator. -/
def comment : P (List Char) := do
  let _ ← tagP ['#']
  let c ← take_while (fun ch => !(ch = '\n' || ch = '\r'))
  let _ ← por (tagP ['\n']) (por (tagP ['\r', '\n']) (tagP ['\r']))
  pure c

/-- `characters::eol`: one or more newline/carriage-return characters,
then any comment lines, then trailing horizontal whitespace. -/
def eol : P Unit := do
  let _ ← many1 (por (tagP ['\n']) (tagP ['\r']))
  let _ ← many0 comment
  let _ ← take_while is_sep
  pure ()

/-! ### Identifier layer (`identifier.rs`) -/

/-- `Id`: a public (`\`-sigil) or autogenerated (`$`-sigil) identifier. -/
inductive Id where
  | Public : List Char → Id
  | Autogen : List Char → Id
deriving DecidableEq

/-- `Id::inner`: the underlying text, tag kept. -/
def Id.inner : Id → List Char
  | .Public s => s
  | .Autogen s => s

/-- `Id::erease`: the underlying text, tag erased. -/
def Id.erease : Id → List Char
  | .Public s => s
  | .Autogen s => s

/-- Modelled from the spec: the `Display` implementation for `Id` (used as
`id.to_string()` by `sigspec.rs`, `module.rs` and others) lives in the
source file that is absent from `src/` (`design.rs`).  Per the spec's
identifier layer and the library's own tests, rendering an identifier
yields its bare inner text without the sigil. -/
def Id.toStr : Id → List Char := Id.inner

/-- `identifier::public_id`: `\` followed by one or more non-whitespace characters. -/
def public_id : P Id := do
  let _ ← tagP ['\\']
  let s ← take_while1 nonwsB
  pure (.Public s)

/-- `identifier::autogen_id`: `$` followed by one or more non-whitespace characters. -/
def autogen_id : P Id := do
  let _ ← tagP ['$']
  let s ← take_while1 nonwsB
  pure (.Autogen s)

/-- `identifier::id`. -/
def idP : P Id := por public_id autogen_id

/-! ### Literal/value layer (`value.rs`) -/

/-- Decimal digit characters. -/
def decimal_digit : P Char := one_of ("0123456789".toList)

/-- Bit characters of a sized value: `0 1 x z m -`, case-insensitive. -/
def binary_digit : P Char := one_of ("01xzXZmM-".toList)

/-- Numeric value of a decimal digit string (most significant digit first). -/
def digitsVal (ds : List Char) : Nat :=
  ds.foldl (fun acc c => 10 * acc + (c.toNat - 48)) 0

/-- Rust `as usize` on an `i32` value: reinterpret two's complement at 64 bits. -/
def usizeOfInt (i : Int) : Nat := (i % (2 : Int) ^ 64).toNat

/-- `value::integer`: optional minus sign, then decimal digits, parsed with
`str::parse::<i32>().unwrap()` — the unwrap panics when the digit string
exceeds `i32::MAX`, before the sign is applied. -/
def integer : P Int := do
  let sign ← popt (tagP ['-'])
  let ds ← many1 decimal_digit
  if digitsVal ds > 2 ^ 31 - 1 then pAbort
  else pure (if sign.isSome then -(digitsVal ds : Int) else (digitsVal ds : Int))

/-- `value::value`: `<decimal-digit>+ ' <binary-digit>*`.  The declared width
is parsed with `parse::<i64>().unwrap()` (panics past `i64::MAX`); on a
width mismatch a single supplied bit is replicated to the declared width,
and any other mismatch hits `unimplemented!` (a panic). -/
def value : P (List Char) := do
  let ds ← many1 decimal_digit
  let _ ← tagP ['\'']
  let bs ← many0 binary_digit
  if digitsVal ds > 2 ^ 63 - 1 then pAbort
  else if digitsVal ds ≠ bs.length then
    match bs with
    | [b] => pure (List.replicate (digitsVal ds) b)
    | _ => pAbort
  else pure bs.reverse

/-! ### String literals (`string.rs`) -/

/-- Octal digit test (Rust `char::is_oct_digit`). -/
def is_oct_digit (c : Char) : Bool := '0' ≤ c && c ≤ '7'

/-- Numeric value of an octal digit string. -/
def octVal (ds : List Char) : Nat :=
  ds.foldl (fun acc c => 8 * acc + (c.toNat - 48)) 0

/-- `string::parse_seq`: one to three octal digits; `u8::from_str_radix`
rejects values above 255 with a nom `Failure`. -/
def parse_seq : P Char :=
  pbind (take_while_m_n 1 3 is_oct_digit) fun ds => fun rest =>
    if octVal ds ≤ 255 then .ok rest (Char.ofNat (octVal ds)) else .fail rest

/-- `string::parse_escaped_char`: a backslash followed by an octal sequence
or one of the fixed one-character escape codes. -/
def parse_escaped_char : P Char :=
  preceded (charP '\\')
    (por parse_seq
      (por (pvalue '\n' (charP 'n'))
        (por (pvalue '\r' (charP 'r'))
          (por (pvalue '\t' (charP 't'))
            (por (pvalue (Char.ofNat 8) (charP 'b'))
              (por (pvalue (Char.ofNat 12) (charP 'f'))
                (por (pvalue '\\' (charP '\\'))
                  (por (pvalue '/' (charP '/'))
                    (pvalue '"' (charP '"'))))))))))

/-- Whitespace characters of nom `multispace1`. -/
def is_multispace (c : Char) : Bool := c = ' ' || c = '\t' || c = '\r' || c = '\n'

/-- `string::parse_escaped_whitespace`: a backslash followed by a
non-empty whitespace run. -/
def parse_escaped_whitespace : P (List Char) :=
  preceded (charP '\\') (take_while1 is_multispace)

/-- `string::parse_literal`: a non-empty run without quote or backslash
(`is_not` demands at least one character; the `verify` keeps the source's
redundant non-emptiness check). -/
def parse_literal : P (List Char) :=
  pverify (take_while1 (fun c => !(c = '"' || c = '\\'))) (fun l => !l.isEmpty)

/-- `string::StringFragment`. -/
inductive StringFragment where
  | Literal : List Char → StringFragment
  | EscapedChar : Char → StringFragment
  | EscapedWS : StringFragment
deriving DecidableEq

/-- `string::parse_fragment`. -/
def parse_fragment : P StringFragment :=
  por (pmap StringFragment.Literal parse_literal)
    (por (pmap StringFragment.EscapedChar parse_escaped_char)
      (pvalue StringFragment.EscapedWS parse_escaped_whitespace))

/-- Folding function of `string::parse_string`. -/
def buildString (frags : List StringFragment) : List Char :=
  frags.foldl
    (fun s f =>
      match f with
      | .Literal l => s ++ l
      | .EscapedChar c => s ++ [c]
      | .EscapedWS => s)
    []

/-- `string::parse_string`: quote-delimited fold of fragments (nom
`fold_many0` has the same loop structure as `many0`, folding as it goes). -/
def parse_string : P (List Char) :=
  delimited (charP '"') (pmap buildString (many0 parse_fragment)) (charP '"')

/-- `string::string`. -/
def stringP : P (List Char) := parse_string

/-! ### Constants (`constant.rs`, data model of `lib.rs`) -/

/-- `Constant`: a bit-vector value, a 32-bit integer, or a decoded string. -/
inductive Constant where
  | Value : List Char → Constant
  | Integer : Int → Constant
  | Str : List Char → Constant
deriving DecidableEq

/-- `constant::constant`: `<value> | <integer> | <string>`, tried in that order. -/
def constant : P Constant :=
  por (pmap Constant.Value value)
    (por (pmap Constant.Integer integer)
      (pmap Constant.Str stringP))

/-! ### Signal specifications (`sigspec.rs`) -/

/-- `SigSpec`: constant, whole wire, bit range, or concatenation. -/
inductive SigSpec where
  | Constant : Constant → SigSpec
  | WireId : List Char → SigSpec
  | Range : SigSpec → Nat → Option Nat → SigSpec
  | Concat : List SigSpec → SigSpec

/-- `sigspec::sigspec_range`: `<id> <sep> "[" <integer> (":" <integer>)? "]"`,
with Rust `as usize` casts on the parsed integers. -/
def sigspec_range : P (SigSpec × Nat × Option Nat) := do
  let wid ← idP
  let _ ← sep
  let _ ← tagP ['[']
  let start ← integer
  let hr ← popt (tagP [':'])
  let send ←
    match hr with
    | none => pure (none : Option Nat)
    | some _ => do
        let e ← integer
        pure (some (usizeOfInt e))
  let _ ← tagP [']']
  pure (SigSpec.WireId wid.toStr, usizeOfInt start, send)

/-- Fueled body of `sigspec::sigspec` with `sigspec::sigspec_concat`
inlined (the concatenation alternative is the sole recursion point; each
entry consumes the opening brace first, so fuel `input.length + 1`
suffices).  Alternatives in source order: constant, range, wire id,
concatenation. -/
def sigspecF : Nat → P SigSpec
  | 0 => fun input => .err input
  | f + 1 =>
    por (pmap SigSpec.Constant constant)
      (por (pmap (fun r => SigSpec.Range r.1 r.2.1 r.2.2) sigspec_range)
        (por (pmap (fun i => SigSpec.WireId i.toStr) idP)
          (pmap SigSpec.Concat (do
            let _ ← tagP ['\x7b']
            let _ ← take_while is_sep
            let l ← many0 (terminated (sigspecF f) sep)
            let _ ← tagP ['\x7d']
            pure l))))

/-- `sigspec::sigspec`. -/
def sigspec : P SigSpec := fun input => sigspecF (input.length + 1) input

/-- `sigspec::sigspec_concat`: `"{" (sigspec <sep>)* "}"` at given fuel. -/
def sigspec_concat (f : Nat) : P (List SigSpec) := do
  let _ ← tagP ['\x7b']
  let _ ← take_while is_sep
  let l ← many0 (terminated (sigspecF f) sep)
  let _ ← tagP ['\x7d']
  pure l

/-! ### Attributes (`attribute.rs`) -/

/-- `attribute::attr_stmt`: `attribute <id> <constant> <eol>`. -/
def attr_stmt : P (List Char × Constant) := do
  let _ ← tagP ("attribute".toList)
  let _ ← sep
  let i ← idP
  let _ ← sep
  let c ← constant
  let _ ← eol
  pure (i.toStr, c)

/-- Model of `std::collections::HashMap::insert`: replace the value in
place if the key is present, otherwise append.  The claims only depend on
the key-to-value contents of the Rust hash maps, which this list
represents deterministically. -/
def insertA {α : Type} : List (List Char × α) → List Char → α → List (List Char × α)
  | [], k, v => [(k, v)]
  | (k0, v0) :: t, k, v =>
    if k0 = k then (k0, v) :: t else (k0, v0) :: insertA t k v

/-- Model of `.into_iter().collect::<HashMap<_, _>>()` (and of inserting
parsed items one by one): later entries overwrite earlier ones. -/
def collectA {α : Type} (l : List (List Char × α)) : List (List Char × α) :=
  l.foldl (fun m kv => insertA m kv.1 kv.2) []

/-! ### Switch/case grammar (`switch.rs`) -/

mutual
/-- `Switch`: attributes, the signal switched on, and its cases (in order). -/
inductive Switch where
  | mk : List (List Char × Constant) → SigSpec → List Case → Switch

/-- `Case`: attributes, the optional compare list, and the case body items. -/
inductive Case where
  | mk : List (List Char × Constant) → Option (List SigSpec) → List CaseBody → Case

/-- `CaseBody`: a nested switch or an assignment pair. -/
inductive CaseBody where
  | sw : Switch → CaseBody
  | assign : SigSpec × SigSpec → CaseBody
end

/-- Attributes of a `Switch`. -/
def Switch.attributes : Switch → List (List Char × Constant)
  | .mk a _ _ => a

/-- Signal a `Switch` tests. -/
def Switch.switch_on_sigspec : Switch → SigSpec
  | .mk _ s _ => s

/-- Cases of a `Switch`, in declared order. -/
def Switch.cases : Switch → List Case
  | .mk _ _ c => c

/-- Attributes of a `Case`. -/
def Case.attributes : Case → List (List Char × Constant)
  | .mk a _ _ => a

/-- Compare list of a `Case` (`none` = default case). -/
def Case.compare_against : Case → Option (List SigSpec)
  | .mk _ c _ => c

/-- Body items of a `Case`, in declared order. -/
def Case.case_bodies : Case → List CaseBody
  | .mk _ _ b => b

/-- `process::assign_stmt`: `assign <dest-sigspec> <src-sigspec> <eol>`. -/
def assign_stmt : P (SigSpec × SigSpec) := do
  let _ ← tagP ("assign".toList)
  let _ ← sep
  let d ← sigspec
  let _ ← sep
  let s ← sigspec
  let _ ← eol
  pure (d, s)

/-- `switch::switch_stmt`: `<attr-stmt>* switch <sigspec> <eol>`. -/
def switch_stmt : P (List (List Char × Constant) × SigSpec) := do
  let attrs ← many0 attr_stmt
  let _ ← tagP ("switch".toList)
  let _ ← sep
  let onSig ← sigspec
  let _ ← eol
  pure (collectA attrs, onSig)

/-- `switch::compare`: `<sigspec> (, <sigspec>)*` with separators around
each comma. -/
def compare : P (List SigSpec) := do
  let first ← sigspec
  let others ← many0 (do
    let _ ← sep
    let _ ← tagP [',']
    let _ ← sep
    sigspec)
  pure (first :: others)

/-- `switch::case_stmt`: `case <compare>? <eol>` — note the mandatory
separator after the keyword, before the optional compare list. -/
def case_stmt : P (Option (List SigSpec)) := do
  let _ ← tagP ("case".toList)
  let _ ← sep
  let c ← popt compare
  let _ ← eol
  pure c

/-- `switch::switch_end_stmt`: `end <eol>`. -/
def switch_end_stmt : P (List Char) := do
  let _ ← tagP ("end".toList)
  let _ ← eol
  pure []

/-- Fueled body of `switch::switch`, with `switch::case` and
`switch::case_body` inlined (a case body may contain a nested switch;
each nested entry first consumes its `switch` keyword, so fuel
`input.length + 1` suffices). -/
def switchF : Nat → P Switch
  | 0 => fun input => .err input
  | f + 1 => do
    let s ← switch_stmt
    let cases ← many0 (do
      let attrs ← many0 attr_stmt
      let cmp ← case_stmt
      let bodies ← many0
        (por (pmap CaseBody.sw (switchF f)) (pmap CaseBody.assign assign_stmt))
      pure (Case.mk (collectA attrs) cmp bodies))
    let _ ← switch_end_stmt
    pure (Switch.mk s.1 s.2 cases)

/-- `switch::case_body` at given fuel: `(<switch> | <assign-stmt>)*`. -/
def case_body (f : Nat) : P (List CaseBody) :=
  many0 (por (pmap CaseBody.sw (switchF f)) (pmap CaseBody.assign assign_stmt))

/-- `switch::case` at given fuel: `<attr-stmt>* <case-stmt> <case-body>`. -/
def caseP (f : Nat) : P Case := do
  let attrs ← many0 attr_stmt
  let cmp ← case_stmt
  let bodies ← case_body f
  pure (Case.mk (collectA attrs) cmp bodies)

/-- `switch::switch`. -/
def switchP : P Switch := fun input => switchF (input.length + 1) input

/-! ### Wires (`wire.rs`) -/

/-- `Wire`: width/offset plus flag set and attributes. -/
structure Wire where
  width : Nat
  offset : Nat
  input : Bool
  output : Bool
  inout : Bool
  upto : Bool
  signed : Bool
  attributes : List (List Char × Constant)
deriving DecidableEq

/-- `impl Default for Wire`. -/
def Wire.default : Wire :=
  { width := 1, offset := 0, input := false, output := false, inout := false,
    upto := false, signed := false, attributes := [] }

/-- `wire::WireOption`. -/
inductive WireOption where
  | Width : Nat → WireOption
  | Offset : Nat → WireOption
  | Input : WireOption
  | Output : WireOption
  | Inout : WireOption
  | Upto : WireOption
  | Signed : WireOption
deriving DecidableEq

/-- `wire::wire_option`: a keyword, a separator plus integer argument for
the five value-taking options (the argument of input/output/inout is
parsed and discarded). -/
def wire_option : P WireOption := do
  let o ← por (tagP ("width".toList))
    (por (tagP ("offset".toList))
      (por (tagP ("input".toList))
        (por (tagP ("output".toList))
          (por (tagP ("inout".toList))
            (por (tagP ("upto".toList)) (tagP ("signed".toList)))))))
  if o = "width".toList then do
    let _ ← sep
    let w ← integer
    pure (WireOption.Width (usizeOfInt w))
  else if o = "offset".toList then do
    let _ ← sep
    let w ← integer
    pure (WireOption.Offset (usizeOfInt w))
  else if o = "input".toList then do
    let _ ← sep
    let _ ← integer
    pure WireOption.Input
  else if o = "output".toList then do
    let _ ← sep
    let _ ← integer
    pure WireOption.Output
  else if o = "inout".toList then do
    let _ ← sep
    let _ ← integer
    pure WireOption.Inout
  else if o = "upto".toList then pure WireOption.Upto
  else pure WireOption.Signed

/-- Apply one parsed wire option (loop body of `wire::wire_stmt`). -/
def applyWireOption (w : Wire) : WireOption → Wire
  | .Width n => { w with width := n }
  | .Offset n => { w with offset := n }
  | .Input => { w with input := true }
  | .Output => { w with output := true }
  | .Inout => { w with inout := true }
  | .Upto => { w with upto := true }
  | .Signed => { w with signed := true }

/-- `wire::wire_stmt`: `wire <wire-option>* <id> <eol>`. -/
def wire_stmt : P (List Char × Wire) := do
  let _ ← tagP ("wire".toList)
  let _ ← sep
  let opts ← many0 (terminated wire_option sep)
  let i ← idP
  let _ ← eol
  pure (i.toStr, opts.foldl applyWireOption Wire.default)

/-- `wire::wire`: `<attr-stmt>* <wire-stmt>`. -/
def wireP : P (List Char × Wire) := do
  let attrs ← many0 attr_stmt
  let w ← wire_stmt
  pure (w.1, { w.2 with attributes := collectA attrs })

/-! ### Memories (`memory.rs`) -/

/-- `Memory`. -/
structure Memory where
  width : Nat
  size : Nat
  offset : Nat
  attributes : List (List Char × Constant)
deriving DecidableEq

/-- `memory::MemoryOption`. -/
inductive MemoryOption where
  | Width : Nat → MemoryOption
  | Size : Nat → MemoryOption
  | Offset : Nat → MemoryOption
deriving DecidableEq

/-- `memory::memory_option`. -/
def memory_option : P MemoryOption := do
  let o ← por (tagP ("width".toList)) (por (tagP ("size".toList)) (tagP ("offset".toList)))
  let v ← preceded sep integer
  if o = "width".toList then pure (MemoryOption.Width (usizeOfInt v))
  else if o = "size".toList then pure (MemoryOption.Size (usizeOfInt v))
  else pure (MemoryOption.Offset (usizeOfInt v))

/-- `memory::memory_stmt`: `memory <memory-option>* <id> <eol>`. -/
def memory_stmt : P (List Char × List MemoryOption) := do
  let _ ← tagP ("memory".toList)
  let _ ← sep
  let opts ← many0 (terminated memory_option sep)
  let i ← idP
  let _ ← eol
  pure (i.toStr, opts)

/-- Apply one parsed memory option (loop body of `memory::memory`). -/
def applyMemoryOption (m : Memory) : MemoryOption → Memory
  | .Width n => { m with width := n }
  | .Size n => { m with size := n }
  | .Offset n => { m with offset := n }

/-- `memory::memory`: attributes then the memory statement; width, size
and offset all default to 0. -/
def memoryP : P (List Char × Memory) := do
  let attrs ← many0 attr_stmt
  let m ← memory_stmt
  pure (m.1,
    m.2.foldl applyMemoryOption
      { width := 0, size := 0, offset := 0, attributes := collectA attrs })

/-! ### Cells (`cell.rs`) -/

/-- `Cell`. -/
structure Cell where
  cell_type : List Char
  parameters : List (List Char × Constant)
  connections : List (List Char × SigSpec)

/-- `cell::cell_stmt`: `cell <cell-type> <cell-id> <eol>`. -/
def cell_stmt : P (List Char × List Char) := do
  let _ ← tagP ("cell".toList)
  let _ ← sep
  let ctype ← idP
  let _ ← sep
  let cid ← idP
  let _ ← eol
  pure (ctype.erease, cid.erease)

/-- `cell::cell_body_stmt_param`: `parameter (signed | real)? <id>
<constant> <eol>`; the signed/real modifiers are recognized, warned
about, and dropped. -/
def cell_body_stmt_param : P (List Char × Constant) := do
  let _ ← tagP ("parameter".toList)
  let _ ← sep
  let _ ← popt (terminated (tagP ("signed".toList)) sep)
  let _ ← popt (terminated (tagP ("real".toList)) sep)
  let i ← idP
  let _ ← sep
  let c ← constant
  let _ ← eol
  pure (i.erease, c)

/-- `cell::cell_connect_stmt`: `connect <id> <sigspec> <eol>`. -/
def cell_connect_stmt : P (List Char × SigSpec) := do
  let _ ← tagP ("connect".toList)
  let _ ← sep
  let i ← idP
  let _ ← sep
  let s ← sigspec
  let _ ← eol
  pure (i.erease, s)

/-- One parsed cell body statement. -/
inductive CellItem where
  | param : List Char × Constant → CellItem
  | conn : List Char × SigSpec → CellItem

/-- `cell::cell_end_stmt`. -/
def cell_end_stmt : P (List Char) := do
  let _ ← tagP ("end".toList)
  let _ ← eol
  pure []

/-- `cell::cell`: leading attributes are parsed and discarded; body
statements are inserted into the parameter and connection maps in parse
order. -/
def cellP : P (List Char × Cell) := do
  let _ ← many0 attr_stmt
  let info ← cell_stmt
  let items ← many0 (por (pmap CellItem.param cell_body_stmt_param)
    (pmap CellItem.conn cell_connect_stmt))
  let _ ← cell_end_stmt
  pure (info.2,
    { cell_type := info.1,
      parameters := collectA (items.filterMap fun it =>
        match it with
        | .param kv => some kv
        | .conn _ => none),
      connections := collectA (items.filterMap fun it =>
        match it with
        | .param _ => none
        | .conn kv => some kv) })

/-! ### Connections (`connect.rs`) -/

/-- `connect::conn_stmt`: `connect <sigspec> <sigspec> <eol>`. -/
def conn_stmt : P (SigSpec × SigSpec) := do
  let _ ← tagP ("connect".toList)
  let _ ← sep
  let s1 ← sigspec
  let _ ← sep
  let s2 ← sigspec
  let _ ← eol
  pure (s1, s2)

/-! ### Syncs (`sync.rs`) -/

/-- `SignalSync`. -/
inductive SignalSync where
  | Low | High | Posedge | Negedge | Edge
deriving DecidableEq

/-- `SyncOn`. -/
inductive SyncOn where
  | Global : SyncOn
  | Init : SyncOn
  | Always : SyncOn
  | Signal : SignalSync → SigSpec → SyncOn

/-- `Memwr`. -/
structure Memwr where
  attributes : List (List Char × Constant)
  address : SigSpec
  data : SigSpec
  enable : SigSpec
  priority_mask : SigSpec

/-- `Sync`. -/
structure Sync where
  sync_event : SyncOn
  updates : List (SigSpec × SigSpec)
  memwrs : List (List Char × Memwr)

/-- `sync::sync_type`: `low | high | posedge | negedge | edge`. -/
def sync_type : P SignalSync :=
  por (pvalue SignalSync.Low (tagP ("low".toList)))
    (por (pvalue SignalSync.High (tagP ("high".toList)))
      (por (pvalue SignalSync.Posedge (tagP ("posedge".toList)))
        (por (pvalue SignalSync.Negedge (tagP ("negedge".toList)))
          (pvalue SignalSync.Edge (tagP ("edge".toList))))))

/-- `sync::sync_stmt`. -/
def sync_stmt : P SyncOn := do
  let _ ← tagP ("sync".toList)
  let _ ← sep
  let s ← por (pvalue SyncOn.Global (tagP ("global".toList)))
    (por (pvalue SyncOn.Init (tagP ("init".toList)))
      (por (pvalue SyncOn.Always (tagP ("always".toList)))
        (do
          let t ← sync_type
          let _ ← sep
          let sg ← sigspec
          pure (SyncOn.Signal t sg))))
  let _ ← eol
  pure s

/-- `sync::update_stmt`: `update <dest-sigspec> <src-sigspec> <eol>`. -/
def update_stmt : P (SigSpec × SigSpec) := do
  let _ ← tagP ("update".toList)
  let _ ← sep
  let d ← sigspec
  let _ ← sep
  let s ← sigspec
  let _ ← eol
  pure (d, s)

/-- `sync::memwr_stmt`: attributes, then
`memwr <id> <address> <data> <enable> <priority-mask> <eol>`. -/
def memwr_stmt : P (List Char × Memwr) := do
  let attrs ← many0 attr_stmt
  let _ ← tagP ("memwr".toList)
  let _ ← sep
  let mid ← idP
  let _ ← sep
  let a ← sigspec
  let _ ← sep
  let d ← sigspec
  let _ ← sep
  let e ← sigspec
  let _ ← sep
  let pm ← sigspec
  let _ ← eol
  pure (mid.erease,
    { attributes := collectA attrs, address := a, data := d, enable := e,
      priority_mask := pm })

/-- `sync::sync`: the sync statement, then updates, then memwr
statements collected into a keyed map. -/
def syncP : P Sync := do
  let ev ← sync_stmt
  let ups ← many0 update_stmt
  let mws ← many0 memwr_stmt
  pure { sync_event := ev, updates := ups, memwrs := collectA mws }

/-! ### Processes (`process.rs`) -/

/-- `Process`. -/
structure Process where
  attributes : List (List Char × Constant)
  assignments : List (SigSpec × SigSpec)
  switches : List Switch
  syncs : List Sync

/-- `process::process_stmt`: `process <id> <eol>`. -/
def process_stmt : P (List Char) := do
  let _ ← tagP ("process".toList)
  let _ ← sep
  let i ← idP
  let _ ← eol
  pure i.toStr

/-- `process::process_end_stmt`. -/
def process_end_stmt : P (List Char) := do
  let _ ← tagP ("end".toList)
  let _ ← eol
  pure []

/-- `process::process`: optional separators, attributes, header,
assignments, switches, syncs, `end`. -/
def processP : P (List Char × Process) := do
  let _ ← many0 sep
  let attrs ← many0 attr_stmt
  let pid ← process_stmt
  let assigns ← many0 assign_stmt
  let switches ← many0 switchP
  let syncs ← many0 syncP
  let _ ← process_end_stmt
  pure (pid,
    { attributes := collectA attrs, assignments := assigns,
      switches := switches, syncs := syncs })

/-! ### Modules (`module.rs`) -/

/-- `Module`. -/
structure Module where
  attributes : List (List Char × Constant)
  parameters : List (List Char × Option Constant)
  wires : List (List Char × Wire)
  memories : List (List Char × Memory)
  cells : List (List Char × Cell)
  processes : List (List Char × Process)
  connections : List (SigSpec × SigSpec)

/-- `module::module_stmt`: `module <id> <eol>`. -/
def module_stmt : P (List Char) := do
  let _ ← tagP ("module".toList)
  let _ ← sep
  let i ← idP
  let _ ← eol
  pure i.toStr

/-- `module::module_end_stmt`. -/
def module_end_stmt : P (List Char) := do
  let _ ← tagP ("end".toList)
  let _ ← eol
  pure []

/-- `module::param_stmt`: `parameter <id> <constant>? <eol>`. -/
def param_stmt : P (List Char × Option Constant) := do
  let _ ← tagP ("parameter".toList)
  let i ← preceded sep idP
  let c ← popt (preceded sep constant)
  let _ ← eol
  pure (i.toStr, c)

/-- One parsed module body statement. -/
inductive ModuleItem where
  | param : List Char × Option Constant → ModuleItem
  | wireI : List Char × Wire → ModuleItem
  | memI : List Char × Memory → ModuleItem
  | cellI : List Char × Cell → ModuleItem
  | procI : List Char × Process → ModuleItem
  | connI : SigSpec × SigSpec → ModuleItem

/-- `module::module`: attributes, header, body statements tried in source
order (parameter, wire, memory, cell, process, connection) and inserted
into the keyed containers in parse order, then `end`. -/
def moduleP : P (List Char × Module) := do
  let attrs ← many0 attr_stmt
  let mid ← module_stmt
  let items ← many0 (por (pmap ModuleItem.param param_stmt)
    (por (pmap ModuleItem.wireI wireP)
      (por (pmap ModuleItem.memI memoryP)
        (por (pmap ModuleItem.cellI cellP)
          (por (pmap ModuleItem.procI processP)
            (pmap ModuleItem.connI conn_stmt))))))
  let _ ← module_end_stmt
  pure (mid,
    { attributes := collectA attrs,
      parameters := collectA (items.filterMap fun it =>
        match it with | .param kv => some kv | _ => none),
      wires := collectA (items.filterMap fun it =>
        match it with | .wireI kv => some kv | _ => none),
      memories := collectA (items.filterMap fun it =>
        match it with | .memI kv => some kv | _ => none),
      cells := collectA (items.filterMap fun it =>
        match it with | .cellI kv => some kv | _ => none),
      processes := collectA (items.filterMap fun it =>
        match it with | .procI kv => some kv | _ => none),
      connections := items.filterMap fun it =>
        match it with | .connI kv => some kv | _ => none })

/-! ### Designs (design assembly; `design.rs` is absent from `src/`) -/

/-- `Design`. -/
structure Design where
  autoidx : Option Int
  modules : List (List Char × Module)

/-- Modelled from the spec: the design-level parser (`design.rs`, reached
through `Design::new_from_str` and `parse`) is not under `src/`.  Spec
§4.7: "A design is an optional global auto-index declaration followed by
zero or more modules; parsing stops successfully at end-of-input"; §3:
module names key the container; §9: on duplicate names the last write
wins.  The auto-index declaration is modelled as `autoidx <integer>
<eol>`. -/
def autoidx_stmt : P Int := do
  let _ ← tagP ("autoidx".toList)
  let _ ← sep
  let i ← integer
  let _ ← eol
  pure i

/-- Modelled from the spec: design assembly (see `autoidx_stmt`).  The
parse succeeds exactly when the module list consumes the whole input. -/
def design : P Design := do
  let ai ← popt autoidx_stmt
  let ms ← many0 moduleP
  fun input =>
    if input = [] then .ok []
      { autoidx := ai, modules := collectA ms }
    else .err input

/-- `parse`: the library entry point. -/
def parse : P Design := design

/-! ### Reference printers and well-formedness

To state round-trip theorems ("every well-formed construct is
reconstructed exactly"), we print ASTs back to canonical RTLIL text and
prove that parsing the print yields the original tree.  The printers
follow the grammar of the source files; the `wf` predicates carve out
the ASTs that the grammar can denote at all (identifier texts non-empty
and above ASCII space, integers within `i32`, strings without quote or
backslash, range bases that are wire references, attribute keys
distinct). -/

/-- Little-endian decimal digits of `n` (fuel-driven; `fuel ≥ n` suffices). -/
def natDigitsRev (fuel : Nat) (n : Nat) : List Nat :=
  match fuel with
  | 0 => []
  | f + 1 => if n = 0 then [] else (n % 10) :: natDigitsRev f (n / 10)

/-- Canonical decimal print of a natural number. -/
def printNat (n : Nat) : List Char :=
  if n = 0 then ['0']
  else ((natDigitsRev n n).reverse.map fun d => Char.ofNat (48 + d))

/-- Canonical decimal print of an integer. -/
def printInt (i : Int) : List Char :=
  if i < 0 then '-' :: printNat i.natAbs else printNat i.toNat

/-- Canonical print of a constant. -/
def printConst : Constant → List Char
  | .Value bs => printNat bs.length ++ '\'' :: bs.reverse
  | .Integer i => printInt i
  | .Str s => '"' :: (s ++ ['"'])

/-- Print of the base of a range (well-formed ranges have wire bases). -/
def printRangeId : SigSpec → List Char
  | .WireId s => '\\' :: s
  | _ => ['!']

/-- Print of the optional end index of a range. -/
def printRangeEnd : Option Nat → List Char
  | none => []
  | some e => ':' :: printNat e

mutual
/-- Canonical print of a signal specification. -/
def printSig : SigSpec → List Char
  | .Constant c => printConst c
  | .WireId s => '\\' :: s
  | .Range b i e => printRangeId b ++ ' ' :: '[' :: (printNat i ++ printRangeEnd e) ++ [']']
  | .Concat l => '\x7b' :: ' ' :: (printSigList l ++ ['\x7d'])

/-- Print of concatenation elements: each element followed by a space. -/
def printSigList : List SigSpec → List Char
  | [] => []
  | s :: r => printSig s ++ ' ' :: printSigList r
end

/-- Canonical print of one attribute statement. -/
def printAttr (kv : List Char × Constant) : List Char :=
  ("attribute ".toList) ++ '\\' :: kv.1 ++ ' ' :: printConst kv.2 ++ ['\n']

/-- Canonical print of a run of attribute statements. -/
def printAttrs : List (List Char × Constant) → List Char
  | [] => []
  | kv :: r => printAttr kv ++ printAttrs r

/-- Print of the tail of a compare list: ` , ` before each element. -/
def printCompareTail : List SigSpec → List Char
  | [] => []
  | s :: r => ' ' :: ',' :: ' ' :: printSig s ++ printCompareTail r

/-- Print of a non-empty compare list. -/
def printCompare : List SigSpec → List Char
  | [] => []
  | s :: r => printSig s ++ printCompareTail r

/-- Print of an optional compare list. -/
def printCompareOpt : Option (List SigSpec) → List Char
  | none => []
  | some l => printCompare l

mutual
/-- Canonical print of a switch construct. -/
def printSwitch : Switch → List Char
  | .mk attrs onSig cases =>
    printAttrs attrs ++ ("switch ".toList) ++ printSig onSig
      ++ '\n' :: printCaseList cases ++ ("end\n".toList)

/-- Print of a case run. -/
def printCaseList : List Case → List Char
  | [] => []
  | c :: r => printCase c ++ printCaseList r

/-- Canonical print of one case. -/
def printCase : Case → List Char
  | .mk attrs cmp bodies =>
    printAttrs attrs ++ ("case ".toList) ++ printCompareOpt cmp
      ++ '\n' :: printBodyList bodies

/-- Print of a case body run. -/
def printBodyList : List CaseBody → List Char
  | [] => []
  | b :: r => printBody b ++ printBodyList r

/-- Canonical print of one case body item. -/
def printBody : CaseBody → List Char
  | .sw s => printSwitch s
  | .assign ds => ("assign ".toList) ++ printSig ds.1 ++ ' ' :: printSig ds.2 ++ ['\n']
end

/-- Well-formed identifier text: non-empty, all characters above space. -/
def wfIdText (s : List Char) : Bool := !s.isEmpty && s.all nonwsB

/-- Well-formed constant: printable and re-parseable. -/
def wfConst : Constant → Bool
  | .Value bs => bs.all (fun c => ("01xzXZmM-".toList).contains c) && decide (bs.length < 2 ^ 63)
  | .Integer i => decide (-(2 ^ 31 : Int) < i) && decide (i < 2 ^ 31)
  | .Str s => s.all (fun c => !(c = '"' || c = '\\'))

mutual
/-- Well-formed signal specification. -/
def wfSig : SigSpec → Bool
  | .Constant c => wfConst c
  | .WireId s => wfIdText s
  | .Range (.WireId s) i e =>
    wfIdText s && decide (i < 2 ^ 31)
      && (match e with | none => true | some x => decide (x < 2 ^ 31))
  | .Range _ _ _ => false
  | .Concat l => wfSigList l

/-- Well-formedness of a list of signal specifications. -/
def wfSigList : List SigSpec → Bool
  | [] => true
  | s :: r => wfSig s && wfSigList r
end

/-- Keys of an association list are pairwise distinct. -/
def nodupKeys {α : Type} : List (List Char × α) → Bool
  | [] => true
  | (k, _) :: t => t.all (fun p => !decide (p.1 = k)) && nodupKeys t

/-- Well-formed attribute list: well-formed entries, distinct keys. -/
def wfAttrs (l : List (List Char × Constant)) : Bool :=
  l.all (fun kv => wfIdText kv.1 && wfConst kv.2) && nodupKeys l

/-- Well-formed optional compare list: `some` lists are non-empty (the
parser never produces `some []`). -/
def wfCmp : Option (List SigSpec) → Bool
  | none => true
  | some l => !l.isEmpty && wfSigList l

mutual
/-- Well-formed switch construct. -/
def wfSwitch : Switch → Bool
  | .mk attrs onSig cases => wfAttrs attrs && wfSig onSig && wfCaseList cases

/-- Well-formedness of a case run. -/
def wfCaseList : List Case → Bool
  | [] => true
  | c :: r => wfCase c && wfCaseList r

/-- Well-formed case. -/
def wfCase : Case → Bool
  | .mk attrs cmp bodies => wfAttrs attrs && wfCmp cmp && wfBodyList bodies

/-- Well-formedness of a case body run. -/
def wfBodyList : List CaseBody → Bool
  | [] => true
  | b :: r => wfBody b && wfBodyList r

/-- Well-formed case body item. -/
def wfBody : CaseBody → Bool
  | .sw s => wfSwitch s
  | .assign ds => wfSig ds.1 && wfSig ds.2
end

/-- Continuations after a printed signal specification that cannot extend
the parse: the next character is a space or newline, and after any run of
separators no `[` follows (which would turn a wire reference into a
range). -/
def safeRestB (rest : List Char) : Bool :=
  (match rest.head? with
   | none => true
   | some c => c = ' ' || c = '\n')
  && (match (rest.dropWhile is_sep).head? with
      | none => true
      | some c => !(c = '['))

/-- Continuations after a printed `<eol>` that the end-of-line token does
not absorb: no further newline, comment, or horizontal whitespace. -/
def eolSafeB (rest : List Char) : Bool :=
  match rest.head? with
  | none => true
  | some c => !(c = '\n' || c = '\r' || c = '#' || c = ' ' || c = '\t')

/-- A nested switch construct (attributes at both levels, an assignment
beside a nested switch, several cases) used to exercise the switch round
trip on a concrete tree. -/
def nestedSwitchDemo : Switch :=
  Switch.mk [(['k'], Constant.Integer 1)] (SigSpec.WireId ['s'])
    [Case.mk [(['p'], Constant.Integer 2)] (some [SigSpec.WireId ['c']])
      [CaseBody.assign (SigSpec.WireId ['a'], SigSpec.WireId ['b']),
       CaseBody.sw (Switch.mk [(['q'], Constant.Integer 3)] (SigSpec.WireId ['u'])
         [Case.mk [] none [CaseBody.assign (SigSpec.WireId ['x'], SigSpec.WireId ['y'])]])],
     Case.mk [] none []]

/-! ## Theorems

### Combinator calculus -/

theorem bindP_eq {α β : Type} : (Bind.bind : P α → (α → P β) → P β) = pbind := rfl

theorem pureP_eq {α : Type} : (Pure.pure : α → P α) = ppure := rfl

theorem ppure_apply {α : Type} (a : α) (input : List Char) :
    ppure a input = .ok input a := rfl

theorem pbind_run {α β : Type} {p : P α} {input rest : List Char} {a : α}
    (f : α → P β) (h : p input = .ok rest a) : pbind p f input = f a rest := by
  simp [pbind, h]

theorem pbind_err {α β : Type} {p : P α} {input e : List Char}
    (f : α → P β) (h : p input = .err e) : pbind p f input = .err e := by
  simp [pbind, h]

theorem pbind_err_ex {α β : Type} {p : P α} {input : List Char}
    (f : α → P β) (h : ∃ e, p input = .err e) : ∃ e, pbind p f input = .err e := by
  obtain ⟨e, he⟩ := h
  exact ⟨e, pbind_err f he⟩

theorem pmap_run {α β : Type} {p : P α} {input rest : List Char} {a : α}
    (f : α → β) (h : p input = .ok rest a) : pmap f p input = .ok rest (f a) := by
  simp [pmap, h]

theorem pmap_err {α β : Type} {p : P α} {input e : List Char}
    (f : α → β) (h : p input = .err e) : pmap f p input = .err e := by
  simp [pmap, h]

theorem pmap_err_ex {α β : Type} {p : P α} {input : List Char}
    (f : α → β) (h : ∃ e, p input = .err e) : ∃ e, pmap f p input = .err e := by
  obtain ⟨e, he⟩ := h
  exact ⟨e, pmap_err f he⟩

theorem por_ok {α : Type} {p q : P α} {input rest : List Char} {a : α}
    (h : p input = .ok rest a) : por p q input = .ok rest a := by
  simp [por, h]

theorem por_err {α : Type} {p q : P α} {input : List Char}
    (h : ∃ e, p input = .err e) : por p q input = q input := by
  obtain ⟨e, he⟩ := h
  simp [por, he]

theorem popt_run {α : Type} {p : P α} {input rest : List Char} {a : α}
    (h : p input = .ok rest a) : popt p input = .ok rest (some a) := by
  simp [popt, h]

theorem popt_none {α : Type} {p : P α} {input : List Char}
    (h : ∃ e, p input = .err e) : popt p input = .ok input none := by
  obtain ⟨e, he⟩ := h
  simp [popt, he]

theorem stripPre_self : ∀ (s rest : List Char), stripPre s (s ++ rest) = some rest
  | [], _ => rfl
  | c :: s, rest => by simp [stripPre, stripPre_self s rest]

theorem tagP_self (s rest : List Char) : tagP s (s ++ rest) = .ok rest s := by
  simp [tagP, stripPre_self]

theorem tagP_single_err {c d : Char} {r : List Char} (h : d ≠ c) :
    tagP [c] (d :: r) = .err (d :: r) := by
  simp [tagP, stripPre, Ne.symm h]

theorem charP_run (c : Char) (r : List Char) : charP c (c :: r) = .ok r c := by
  simp [charP]

theorem charP_err {c d : Char} {r : List Char} (h : d ≠ c) :
    charP c (d :: r) = .err (d :: r) := by
  simp [charP, h]

/-! ### Character runs -/

theorem takeWhile_head_false {p : Char → Bool} :
    ∀ {l : List Char}, (∀ c, l.head? = some c → p c = false) → l.takeWhile p = []
  | [], _ => rfl
  | c :: t, h => by simp [List.takeWhile, h c rfl]

theorem dropWhile_head_false {p : Char → Bool} :
    ∀ {l : List Char}, (∀ c, l.head? = some c → p c = false) → l.dropWhile p = l
  | [], _ => rfl
  | c :: t, h => by simp [List.dropWhile, h c rfl]

theorem takeWhile_run {p : Char → Bool} :
    ∀ (l r : List Char), (∀ c ∈ l, p c = true) →
      (∀ c, r.head? = some c → p c = false) →
      (l ++ r).takeWhile p = l ∧ (l ++ r).dropWhile p = r
  | [], r, _, hr => ⟨takeWhile_head_false hr, dropWhile_head_false hr⟩
  | c :: l, r, hl, hr => by
    have ih := takeWhile_run l r (fun d hd => hl d (List.mem_cons_of_mem c hd)) hr
    simp [List.takeWhile, List.dropWhile, hl c (List.mem_cons_self c _), ih.1, ih.2]

theorem take_while1_run {p : Char → Bool} {l r : List Char}
    (hne : l ≠ []) (hl : ∀ c ∈ l, p c = true)
    (hr : ∀ c, r.head? = some c → p c = false) :
    take_while1 p (l ++ r) = .ok r l := by
  obtain ⟨h1, h2⟩ := takeWhile_run l r hl hr
  unfold take_while1
  rw [h1, h2]
  cases l with
  | nil => exact absurd rfl hne
  | cons c t => rfl

theorem take_while1_err {p : Char → Bool} {l : List Char}
    (h : ∀ c, l.head? = some c → p c = false) :
    take_while1 p l = .err l := by
  unfold take_while1
  rw [takeWhile_head_false h]

theorem take_while_run {p : Char → Bool} {l r : List Char}
    (hl : ∀ c ∈ l, p c = true) (hr : ∀ c, r.head? = some c → p c = false) :
    take_while p (l ++ r) = .ok r l := by
  obtain ⟨h1, h2⟩ := takeWhile_run l r hl hr
  unfold take_while
  rw [h1, h2]

theorem sep_run {r : List Char} (h : ∀ c, r.head? = some c → is_sep c = false) :
    sep (' ' :: r) = .ok r () := by
  show pbind (take_while1 is_sep) (fun _ => ppure ()) (' ' :: r) = .ok r ()
  have : (' ' :: r) = [' '] ++ r := rfl
  rw [this, pbind_run _ (take_while1_run (by simp) (by simp [is_sep]) h)]
  rfl

theorem sep_err {r : List Char} (h : ∀ c, r.head? = some c → is_sep c = false) :
    sep r = .err r := by
  show pbind (take_while1 is_sep) (fun _ => ppure ()) r = .err r
  rw [pbind_err _ (take_while1_err h)]

/-! ### The `many0` loop -/

theorem many0F_congr {α : Type} (p : P α) :
    ∀ (f g : Nat) (input : List Char), input.length < f → input.length < g →
      many0F p f input = many0F p g input := by
  intro f
  induction f with
  | zero => intro g input h _; omega
  | succ f ih =>
    intro g input hf hg
    cases g with
    | zero => omega
    | succ g =>
      simp only [many0F]
      cases hp : p input with
      | ok rest a =>
        by_cases hlen : input.length ≤ rest.length
        · simp [hlen]
        · have h1 : rest.length < f := by omega
          have h2 : rest.length < g := by omega
          simp [hlen, ih g rest h1 h2]
      | err e => rfl
      | fail e => rfl
      | panic => rfl

theorem many0_err_step {α : Type} {p : P α} {input : List Char}
    (h : ∃ e, p input = .err e) : many0 p input = .ok input [] := by
  obtain ⟨e, he⟩ := h
  simp [many0, many0F, he]

theorem many0_cons_step {α : Type} {p : P α} {input rest r : List Char} {a : α} {l : List α}
    (h : p input = .ok rest a) (hlt : rest.length < input.length)
    (h2 : many0 p rest = .ok r l) : many0 p input = .ok r (a :: l) := by
  have hcongr : many0F p input.length rest = many0F p (rest.length + 1) rest :=
    many0F_congr p input.length (rest.length + 1) rest hlt (by omega)
  simp only [many0, many0F, h]
  rw [if_neg (by omega), hcongr]
  change (match many0 p rest with
    | .ok r l => PResult.ok r (a :: l)
    | .err e => PResult.err e
    | .fail e => PResult.fail e
    | .panic => PResult.panic) = _
  rw [h2]

theorem many0_chunks {α : Type} (p : P α) :
    ∀ (chunks : List (List Char × α)) (rest : List Char),
      (∃ e, p rest = .err e) →
      (∀ pre c a post, chunks = pre ++ (c, a) :: post →
        c ≠ [] ∧
          p (c ++ ((post.map Prod.fst).flatten ++ rest)) =
            .ok ((post.map Prod.fst).flatten ++ rest) a) →
      many0 p ((chunks.map Prod.fst).flatten ++ rest) = .ok rest (chunks.map Prod.snd)
  | [], rest, hstop, _ => by
    simpa using many0_err_step hstop
  | (c, a) :: t, rest, hstop, hitem => by
    have hhead := hitem [] c a t rfl
    have htail := many0_chunks p t rest hstop (fun pre c' a' post heq => by
      exact hitem ((c, a) :: pre) c' a' post (by simp [heq]))
    have hlt : ((t.map Prod.fst).flatten ++ rest).length <
        (c ++ ((t.map Prod.fst).flatten ++ rest)).length := by
      rcases c with _ | ⟨d, c⟩
      · exact absurd rfl hhead.1
      · simp
        omega
    have := many0_cons_step hhead.2 hlt htail
    simpa using this

theorem many0_one_of_run (cs : List Char) :
    ∀ (l r : List Char), (∀ c ∈ l, cs.contains c = true) →
      (∀ c, r.head? = some c → cs.contains c = false) →
      many0 (one_of cs) (l ++ r) = .ok r l
  | [], r, _, hr => by
    apply many0_err_step
    cases r with
    | nil => exact ⟨[], rfl⟩
    | cons c t =>
      have h' : c ∉ cs := by simpa using hr c rfl
      exact ⟨c :: t, by simp [one_of, h']⟩
  | d :: l, r, hl, hr => by
    have hd' : d ∈ cs := by simpa using hl d (List.mem_cons_self d _)
    have hd : one_of cs (d :: (l ++ r)) = .ok (l ++ r) d := by
      simp [one_of, hd']
    have ih := many0_one_of_run cs l r (fun c hc => hl c (List.mem_cons_of_mem d hc)) hr
    simpa using many0_cons_step hd (by simp) ih

theorem many1_one_of_run (cs : List Char) {l r : List Char}
    (hne : l ≠ []) (hl : ∀ c ∈ l, cs.contains c = true)
    (hr : ∀ c, r.head? = some c → cs.contains c = false) :
    many1 (one_of cs) (l ++ r) = .ok r l := by
  cases l with
  | nil => exact absurd rfl hne
  | cons d l =>
    have hd' : d ∈ cs := by simpa using hl d (List.mem_cons_self d _)
    have hd : one_of cs (d :: (l ++ r)) = .ok (l ++ r) d := by
      simp [one_of, hd']
    have ih := many0_one_of_run cs l r (fun c hc => hl c (List.mem_cons_of_mem d hc)) hr
    simp only [many1, List.cons_append, hd]
    rw [pmap_run _ ih]

theorem many1_err {α : Type} {p : P α} {input e : List Char}
    (h : p input = .err e) : many1 p input = .err e := by
  simp [many1, h]

/-! ### Decimal printing round trip -/

theorem natDigitsRev_lt10 : ∀ (f n d : Nat), d ∈ natDigitsRev f n → d < 10
  | 0, _, _, h => by simp [natDigitsRev] at h
  | f + 1, n, d, h => by
    by_cases hn : n = 0
    · simp [natDigitsRev, hn] at h
    · simp only [natDigitsRev, if_neg hn, List.mem_cons] at h
      rcases h with h | h
      · omega
      · exact natDigitsRev_lt10 f (n / 10) d h

theorem natDigitsRev_foldl : ∀ (f n : Nat), n ≤ f →
    (natDigitsRev f n).reverse.foldl (fun a d => 10 * a + d) 0 = n
  | 0, n, h => by
    interval_cases n
    simp [natDigitsRev]
  | f + 1, n, h => by
    by_cases hn : n = 0
    · simp [natDigitsRev, hn]
    · have hdiv : n / 10 ≤ f := by omega
      have ih := natDigitsRev_foldl f (n / 10) hdiv
      simp only [natDigitsRev, if_neg hn, List.reverse_cons, List.foldl_append, ih,
        List.foldl_cons, List.foldl_nil]
      omega

theorem digit_char_facts : ∀ (d : Nat), d < 10 →
    (Char.ofNat (48 + d)).toNat = 48 + d ∧
      ("0123456789".toList).contains (Char.ofNat (48 + d)) = true := by
  decide

theorem foldl_digit_chars :
    ∀ (L : List Nat) (acc : Nat), (∀ d ∈ L, d < 10) →
      L.foldl (fun a d => 10 * a + ((Char.ofNat (48 + d)).toNat - 48)) acc =
        L.foldl (fun a d => 10 * a + d) acc
  | [], _, _ => rfl
  | d :: L, acc, h => by
    have hd := (digit_char_facts d (h d (List.mem_cons_self d _))).1
    simp only [List.foldl_cons, hd]
    have heq : 10 * acc + (48 + d - 48) = 10 * acc + d := by omega
    rw [heq]
    exact foldl_digit_chars L _ (fun e he => h e (List.mem_cons_of_mem d he))

theorem digitsVal_map_digits (L : List Nat) (h : ∀ d ∈ L, d < 10) :
    digitsVal (L.map fun d => Char.ofNat (48 + d)) =
      L.foldl (fun a d => 10 * a + d) 0 := by
  unfold digitsVal
  rw [List.foldl_map]
  exact foldl_digit_chars L 0 h

theorem printNat_spec (n : Nat) :
    (∀ c ∈ printNat n, ("0123456789".toList).contains c = true) ∧
      digitsVal (printNat n) = n ∧ printNat n ≠ [] := by
  by_cases hn : n = 0
  · subst hn
    refine ⟨?_, by decide, by decide⟩
    intro c hc
    simp [printNat] at hc
    subst hc
    decide
  · unfold printNat
    rw [if_neg hn]
    refine ⟨?_, ?_, ?_⟩
    · intro c hc
      simp only [List.mem_map, List.mem_reverse] at hc
      obtain ⟨d, hd, rfl⟩ := hc
      exact (digit_char_facts d (natDigitsRev_lt10 n n d hd)).2
    · rw [show (natDigitsRev n n).reverse.map (fun d => Char.ofNat (48 + d)) =
          ((natDigitsRev n n).reverse).map (fun d => Char.ofNat (48 + d)) from rfl]
      rw [digitsVal_map_digits _ (fun d hd => natDigitsRev_lt10 n n d (by simpa using hd))]
      exact natDigitsRev_foldl n n le_rfl
    · intro hcon
      have : natDigitsRev n n = [] := by
        have := congrArg List.length hcon
        simp at this
        exact this
      have hfold := natDigitsRev_foldl n n le_rfl
      rw [this] at hfold
      simp at hfold
      exact hn hfold.symm

theorem decimal_not_minus {c : Char}
    (h : ("0123456789".toList).contains c = true) : c ≠ '-' := by
  intro hc
  subst hc
  simp at h

theorem decimal_not_quote {c : Char}
    (h : ("0123456789".toList).contains c = true) : c ≠ '\'' := by
  intro hc
  subst hc
  simp at h

/-! ### The `integer` parser -/

theorem integer_run (i : Int) (r : List Char)
    (h1 : -(2 ^ 31) < i) (h2 : i < 2 ^ 31)
    (hr : ∀ c, r.head? = some c → ("0123456789".toList).contains c = false) :
    integer (printInt i ++ r) = .ok r i := by
  obtain ⟨hdig, hval, hne⟩ := printNat_spec i.natAbs
  obtain ⟨hdig0, hval0, hne0⟩ := printNat_spec i.toNat
  show pbind (popt (tagP ['-'])) _ (printInt i ++ r) = .ok r i
  by_cases hneg : i < 0
  · have hpi : printInt i ++ r = '-' :: (printNat i.natAbs ++ r) := by
      simp [printInt, if_pos hneg]
    rw [hpi]
    rw [pbind_run _ (popt_run (show tagP ['-'] ('-' :: (printNat i.natAbs ++ r)) =
      .ok (printNat i.natAbs ++ r) ['-'] by
        have : ('-' :: (printNat i.natAbs ++ r)) = ['-'] ++ (printNat i.natAbs ++ r) := rfl
        rw [this, tagP_self]))]
    show pbind (many1 decimal_digit) _ _ = _
    simp only [decimal_digit]
    rw [pbind_run _ (many1_one_of_run _ hne hdig hr)]
    simp only [hval]
    rw [if_neg (show ¬ i.natAbs > 2 ^ 31 - 1 by omega)]
    show PResult.ok r (-(i.natAbs : Int)) = PResult.ok r i
    congr 1
    omega
  · have hpi : printInt i = printNat i.toNat := by
      simp [printInt, if_neg hneg]
    rw [hpi]
    have hhead : popt (tagP ['-']) (printNat i.toNat ++ r) =
        .ok (printNat i.toNat ++ r) none := by
      apply popt_none
      cases hp : printNat i.toNat with
      | nil => exact absurd hp hne0
      | cons c t =>
        have hc : c ∈ printNat i.toNat := by rw [hp]; exact List.mem_cons_self c t
        have hcne := decimal_not_minus (hdig0 c hc)
        exact ⟨c :: (t ++ r), by simpa using tagP_single_err hcne⟩
    rw [pbind_run _ hhead]
    show pbind (many1 decimal_digit) _ _ = _
    simp only [decimal_digit]
    rw [pbind_run _ (many1_one_of_run _ hne0 hdig0 hr)]
    simp only [hval0]
    rw [if_neg (show ¬ i.toNat > 2 ^ 31 - 1 by omega)]
    show PResult.ok r ((i.toNat : Int)) = PResult.ok r i
    congr 1
    omega

/-! ### The `value` parser -/

theorem value_run (ds bits r : List Char)
    (hne : ds ≠ [])
    (hds : ∀ c ∈ ds, ("0123456789".toList).contains c = true)
    (hbits : ∀ c ∈ bits, ("01xzXZmM-".toList).contains c = true)
    (hr : ∀ c, r.head? = some c → ("01xzXZmM-".toList).contains c = false) :
    value (ds ++ '\'' :: (bits ++ r)) =
      if digitsVal ds > 2 ^ 63 - 1 then .panic
      else if digitsVal ds ≠ bits.length then
        match bits with
        | [b] => .ok r (List.replicate (digitsVal ds) b)
        | _ => .panic
      else .ok r bits.reverse := by
  show pbind (many1 decimal_digit) _ _ = _
  simp only [decimal_digit]
  rw [pbind_run _ (many1_one_of_run _ hne hds (fun c hc => by
    simp at hc
    subst hc
    decide))]
  show pbind (tagP ['\'']) _ _ = _
  rw [show ('\'' :: (bits ++ r)) = ['\''] ++ (bits ++ r) from rfl,
    pbind_run _ (tagP_self _ _)]
  show pbind (many0 binary_digit) _ _ = _
  simp only [binary_digit]
  rw [pbind_run _ (many0_one_of_run _ bits r hbits hr)]
  by_cases h63 : digitsVal ds > 2 ^ 63 - 1
  · rw [if_pos h63, if_pos h63]
    rfl
  · rw [if_neg h63, if_neg h63]
    by_cases hlen : digitsVal ds ≠ bits.length
    · rw [if_pos hlen, if_pos hlen]
      cases bits with
      | nil => rfl
      | cons b t =>
        cases t with
        | nil => rfl
        | cons b2 t2 => rfl
    · rw [if_neg hlen, if_neg hlen]
      rfl

/-! ### String escapes -/

theorem escaped_char_n (r : List Char) :
    parse_escaped_char ('\\' :: 'n' :: r) = .ok r '\n' := rfl

theorem escaped_char_t (r : List Char) :
    parse_escaped_char ('\\' :: 't' :: r) = .ok r '\t' := rfl

theorem escaped_char_quote (r : List Char) :
    parse_escaped_char ('\\' :: '"' :: r) = .ok r '"' := rfl

theorem takeWhile_append_all {p : Char → Bool} :
    ∀ (l r : List Char), (∀ c ∈ l, p c = true) →
      (l ++ r).takeWhile p = l ++ r.takeWhile p
  | [], _, _ => by simp
  | c :: t, r, h => by
    simp only [List.cons_append, List.takeWhile_cons, h c (List.mem_cons_self c _),
      if_true]
    rw [takeWhile_append_all t r (fun d hd => h d (List.mem_cons_of_mem c hd))]

theorem escaped_char_octal (ds r : List Char)
    (hne : ds ≠ []) (hlen : ds.length ≤ 3)
    (hds : ∀ c ∈ ds, is_oct_digit c = true)
    (hstop : ds.length = 3 ∨ ∀ c, r.head? = some c → is_oct_digit c = false)
    (hval : octVal ds ≤ 255) :
    parse_escaped_char ('\\' :: (ds ++ r)) = .ok r (Char.ofNat (octVal ds)) := by
  unfold parse_escaped_char preceded
  rw [bindP_eq, pbind_run _ (charP_run '\\' (ds ++ r))]
  have htake : ((ds ++ r).takeWhile is_oct_digit).take 3 = ds := by
    rcases hstop with h3 | hstopr
    · rw [takeWhile_append_all ds r hds, ← h3, List.take_left]
    · rw [(takeWhile_run ds r hds hstopr).1, List.take_of_length_le hlen]
  have hmn : take_while_m_n 1 3 is_oct_digit (ds ++ r) = .ok r ds := by
    unfold take_while_m_n
    simp only [htake]
    rw [if_neg (by
      cases ds with
      | nil => exact absurd rfl hne
      | cons c t => simp)]
    congr 1
    exact List.drop_left ds r
  have hseq : parse_seq (ds ++ r) = .ok r (Char.ofNat (octVal ds)) := by
    unfold parse_seq
    rw [pbind_run _ hmn]
    simp [hval]
  exact por_ok hseq

theorem is_multispace_cases {c : Char} (h : is_multispace c = true) :
    c = ' ' ∨ c = '\t' ∨ c = '\r' ∨ c = '\n' := by
  simp only [is_multispace, Bool.or_eq_true, decide_eq_true_eq] at h
  tauto

theorem escaped_char_err_ws (w0 : Char) (X : List Char)
    (h : is_multispace w0 = true) :
    parse_escaped_char ('\\' :: w0 :: X) = .err (w0 :: X) := by
  rcases is_multispace_cases h with rfl | rfl | rfl | rfl <;> rfl

theorem parse_fragment_quote (r : List Char) :
    parse_fragment ('"' :: r) = .err ('"' :: r) := rfl

theorem parse_literal_run {s r : List Char} (hne : s ≠ [])
    (hs : ∀ c ∈ s, (!(c = '"' || c = '\\')) = true)
    (hr : ∀ c, r.head? = some c → (!(c = '"' || c = '\\')) = false) :
    parse_literal (s ++ r) = .ok r s := by
  unfold parse_literal
  unfold pverify
  rw [take_while1_run hne hs hr]
  cases s with
  | nil => exact absurd rfl hne
  | cons c t => simp

theorem parse_literal_err {l : List Char}
    (h : ∀ c, l.head? = some c → (!(c = '"' || c = '\\')) = false) :
    parse_literal l = .err l := by
  unfold parse_literal pverify
  rw [take_while1_err h]

theorem string_literal_run (s r : List Char)
    (hs : ∀ c ∈ s, (!(c = '"' || c = '\\')) = true) :
    stringP ('"' :: (s ++ '"' :: r)) = .ok r s := by
  unfold stringP parse_string delimited
  rw [bindP_eq, pbind_run _ (charP_run '"' (s ++ '"' :: r))]
  have hfrags : many0 parse_fragment (s ++ '"' :: r) =
      .ok ('"' :: r) (if s.isEmpty then [] else [StringFragment.Literal s]) := by
    cases s with
    | nil =>
      simp only [List.nil_append, List.isEmpty_nil, if_pos]
      exact many0_err_step ⟨_, parse_fragment_quote r⟩
    | cons c t =>
      simp only [List.isEmpty_cons, if_neg]
      have hfrag1 : parse_fragment ((c :: t) ++ '"' :: r) =
          .ok ('"' :: r) (StringFragment.Literal (c :: t)) := by
        unfold parse_fragment
        apply por_ok
        apply pmap_run
        exact parse_literal_run (by simp) hs (fun d hd => by
          simp at hd
          subst hd
          decide)
      refine many0_cons_step hfrag1 (by simp <;> omega) (many0_err_step ⟨_, parse_fragment_quote r⟩)
  show pbind (pmap buildString (many0 parse_fragment)) _ _ = _
  rw [pbind_run _ (pmap_run _ hfrags)]
  show pbind (charP '"') _ _ = _
  rw [pbind_run _ (charP_run '"' r)]
  cases s with
  | nil => rfl
  | cons c t => rfl

theorem string_ws_elision (ws lit r : List Char)
    (hwsne : ws ≠ []) (hws : ∀ c ∈ ws, is_multispace c = true)
    (hlit : ∀ c ∈ lit, (!(c = '"' || c = '\\')) = true)
    (hhead : ∀ c, lit.head? = some c → is_multispace c = false) :
    stringP ('"' :: '\\' :: (ws ++ (lit ++ '"' :: r))) = .ok r lit := by
  unfold stringP parse_string delimited
  rw [bindP_eq, pbind_run _ (charP_run '"' _)]
  have hfrag1 : parse_fragment ('\\' :: (ws ++ (lit ++ '"' :: r))) =
      .ok (lit ++ '"' :: r) StringFragment.EscapedWS := by
    unfold parse_fragment
    rw [por_err, por_err]
    · unfold pvalue
      apply pmap_run
      unfold parse_escaped_whitespace preceded
      rw [bindP_eq, pbind_run _ (charP_run '\\' _)]
      exact take_while1_run hwsne hws (fun c hc => by
        cases lit with
        | nil =>
          simp at hc
          subst hc
          decide
        | cons d t =>
          simp at hc
          subst hc
          exact hhead _ rfl)
    · cases ws with
      | nil => exact absurd rfl hwsne
      | cons w0 wt =>
        have h0 := escaped_char_err_ws w0 (wt ++ (lit ++ '"' :: r))
          (hws w0 (List.mem_cons_self w0 _))
        have h1 : parse_escaped_char ('\\' :: (w0 :: wt ++ (lit ++ '"' :: r))) =
            .err (w0 :: wt ++ (lit ++ '"' :: r)) := by simpa using h0
        exact ⟨_, pmap_err _ h1⟩
    · exact ⟨_, pmap_err _ (parse_literal_err (fun c hc => by
        simp at hc
        subst hc
        decide))⟩
  have hfrags : many0 parse_fragment ('\\' :: (ws ++ (lit ++ '"' :: r))) =
      .ok ('"' :: r)
        (StringFragment.EscapedWS ::
          (if lit.isEmpty then [] else [StringFragment.Literal lit])) := by
    apply many0_cons_step hfrag1 (by simp <;> omega)
    cases lit with
    | nil =>
      simp only [List.nil_append, List.isEmpty_nil, if_pos]
      exact many0_err_step ⟨_, parse_fragment_quote r⟩
    | cons c t =>
      simp only [List.isEmpty_cons, if_neg]
      have hfrag2 : parse_fragment ((c :: t) ++ '"' :: r) =
          .ok ('"' :: r) (StringFragment.Literal (c :: t)) := by
        unfold parse_fragment
        apply por_ok
        apply pmap_run
        exact parse_literal_run (by simp) hlit (fun d hd => by
          simp at hd
          subst hd
          decide)
      refine many0_cons_step hfrag2 (by simp <;> omega) (many0_err_step ⟨_, parse_fragment_quote r⟩)
  show pbind (pmap buildString (many0 parse_fragment)) _ _ = _
  rw [pbind_run _ (pmap_run _ hfrags)]
  show pbind (charP '"') _ _ = _
  rw [pbind_run _ (charP_run '"' r)]
  cases lit with
  | nil => rfl
  | cons c t => rfl

/-! ### Identifiers -/

theorem public_id_run {s r : List Char} (hne : s ≠ [])
    (hs : ∀ c ∈ s, nonwsB c = true)
    (hr : ∀ c, r.head? = some c → nonwsB c = false) :
    idP ('\\' :: (s ++ r)) = .ok r (.Public s) := by
  unfold idP
  apply por_ok
  unfold public_id
  show pbind (tagP ['\\']) _ _ = _
  rw [show ('\\' :: (s ++ r)) = ['\\'] ++ (s ++ r) from rfl, pbind_run _ (tagP_self _ _)]
  show pbind (take_while1 nonwsB) _ _ = _
  rw [pbind_run _ (take_while1_run hne hs hr)]
  rfl

theorem autogen_id_run {s r : List Char} (hne : s ≠ [])
    (hs : ∀ c ∈ s, nonwsB c = true)
    (hr : ∀ c, r.head? = some c → nonwsB c = false) :
    idP ('$' :: (s ++ r)) = .ok r (.Autogen s) := by
  unfold idP
  rw [por_err ⟨_, by
    unfold public_id
    show pbind (tagP ['\\']) _ _ = _
    rw [pbind_err _ (tagP_single_err (by decide))]⟩]
  unfold autogen_id
  show pbind (tagP ['$']) _ _ = _
  rw [show ('$' :: (s ++ r)) = ['$'] ++ (s ++ r) from rfl, pbind_run _ (tagP_self _ _)]
  show pbind (take_while1 nonwsB) _ _ = _
  rw [pbind_run _ (take_while1_run hne hs hr)]
  rfl

theorem idP_err {input : List Char} {c0 : Char} (h : input.head? = some c0)
    (h1 : c0 ≠ '\\') (h2 : c0 ≠ '$') : ∃ e, idP input = .err e := by
  cases input with
  | nil => simp at h
  | cons c t =>
    simp at h
    subst h
    refine ⟨c :: t, ?_⟩
    unfold idP
    rw [por_err ⟨_, by
      unfold public_id
      show pbind (tagP ['\\']) _ _ = _
      rw [pbind_err _ (tagP_single_err h1)]⟩]
    unfold autogen_id
    show pbind (tagP ['$']) _ _ = _
    rw [pbind_err _ (tagP_single_err h2)]

/-! ### Constants -/

theorem decimal_char_facts {c : Char}
    (h : ("0123456789".toList).contains c = true) :
    is_sep c = false ∧ c ≠ '[' ∧ c ≠ '\n' ∧ c ≠ '\'' ∧ c ≠ '-' ∧ c ≠ '"' ∧
      c ≠ '\\' ∧ c ≠ '$' ∧ c ≠ '\x7b' := by
  have hm : c ∈ ("0123456789".toList) := by simpa using h
  fin_cases hm <;> refine ⟨by decide, by decide, by decide, by decide, by decide,
    by decide, by decide, by decide, by decide⟩

theorem binary_char_not_space_nl {c : Char} (hc : c = ' ' ∨ c = '\n') :
    ("01xzXZmM-".toList).contains c = false := by
  rcases hc with rfl | rfl <;> decide

theorem safeRest_head {r : List Char} (h : safeRestB r = true) :
    ∀ c, r.head? = some c → (c = ' ' ∨ c = '\n') := by
  intro c hc
  unfold safeRestB at h
  rw [hc] at h
  simp only [Bool.and_eq_true, Bool.or_eq_true, decide_eq_true_eq] at h
  tauto

theorem safeRest_dropSep {r : List Char} (h : safeRestB r = true) :
    ∀ c, (r.dropWhile is_sep).head? = some c → c ≠ '[' := by
  intro c hc
  unfold safeRestB at h
  rw [hc] at h
  simp only [Bool.and_eq_true, Bool.not_eq_true', decide_eq_false_iff_not] at h
  exact h.2

theorem value_err_nondigit {input : List Char} {c0 : Char}
    (h : input.head? = some c0)
    (hd : ("0123456789".toList).contains c0 = false) :
    ∃ e, value input = .err e := by
  cases input with
  | nil => simp at h
  | cons c t =>
    simp at h
    subst h
    refine ⟨c :: t, ?_⟩
    show pbind (many1 decimal_digit) _ _ = _
    refine pbind_err _ (many1_err (by
      have h' : c ∉ ("0123456789".toList) := by simpa using hd
      simp at h'
      simp [decimal_digit, one_of, h']))

theorem tagP_err_head {s input : List Char} {c0 d : Char}
    (h : input.head? = some c0) (hs : s.head? = some d) (hne : c0 ≠ d) :
    tagP s input = .err input := by
  cases input with
  | nil => simp at h
  | cons c t =>
    cases s with
    | nil => simp at hs
    | cons a s =>
      simp at h hs
      subst h
      subst hs
      simp [tagP, stripPre, Ne.symm hne]

theorem value_err_noquote {r : List Char} (n : Nat)
    (hrd : ∀ c, r.head? = some c → ("0123456789".toList).contains c = false)
    (hr : ∀ c, r.head? = some c → c ≠ '\'') :
    ∃ e, value (printNat n ++ r) = .err e := by
  obtain ⟨hdig, _, hne⟩ := printNat_spec n
  refine ⟨r, ?_⟩
  show pbind (many1 decimal_digit) _ _ = _
  simp only [decimal_digit]
  rw [pbind_run _ (many1_one_of_run _ hne hdig hrd)]
  refine pbind_err _ ?_
  cases r with
  | nil => rfl
  | cons c t =>
    exact tagP_err_head (show (c :: t).head? = some c from rfl)
      (show (['\''] : List Char).head? = some '\'' from rfl) (hr c rfl)

theorem integer_err_head {input : List Char} {c0 : Char}
    (h : input.head? = some c0)
    (hd : ("0123456789".toList).contains c0 = false) (hm : c0 ≠ '-') :
    ∃ e, integer input = .err e := by
  cases input with
  | nil => exact ⟨[], rfl⟩
  | cons c t =>
    simp at h
    subst h
    refine ⟨c :: t, ?_⟩
    show pbind (popt (tagP ['-'])) _ _ = _
    rw [pbind_run _ (popt_none ⟨c :: t,
      tagP_err_head (show (c :: t).head? = some c from rfl)
        (show (['-'] : List Char).head? = some '-' from rfl) hm⟩)]
    show pbind (many1 decimal_digit) _ _ = _
    refine pbind_err _ (many1_err (by
      have h' : c ∉ ("0123456789".toList) := by simpa using hd
      simp at h'
      simp [decimal_digit, one_of, h']))

theorem stringP_err_head {input : List Char} {c0 : Char}
    (h : input.head? = some c0) (hq : c0 ≠ '"') :
    ∃ e, stringP input = .err e := by
  cases input with
  | nil => exact ⟨[], rfl⟩
  | cons c t =>
    simp at h
    subst h
    refine ⟨c :: t, ?_⟩
    unfold stringP parse_string delimited
    rw [bindP_eq]
    exact pbind_err _ (charP_err hq)

theorem constant_err_head {input : List Char} {c0 : Char}
    (h : input.head? = some c0)
    (hd : ("0123456789".toList).contains c0 = false)
    (hm : c0 ≠ '-') (hq : c0 ≠ '"') :
    ∃ e, constant input = .err e := by
  unfold constant
  rw [por_err (pmap_err_ex _ (value_err_nondigit h hd)),
    por_err (pmap_err_ex _ (integer_err_head h hd hm))]
  exact pmap_err_ex _ (stringP_err_head h hq)

theorem constant_run (c : Constant) (r : List Char)
    (hc : wfConst c = true) (hr : safeRestB r = true) :
    constant (printConst c ++ r) = .ok r c := by
  cases c with
  | Value bs =>
    unfold wfConst at hc
    simp only [Bool.and_eq_true, List.all_eq_true, decide_eq_true_eq] at hc
    obtain ⟨hdig, hval, hne⟩ := printNat_spec bs.length
    have hform : printConst (.Value bs) ++ r =
        printNat bs.length ++ '\'' :: (bs.reverse ++ r) := by
      simp [printConst]
    have hv : value (printNat bs.length ++ '\'' :: (bs.reverse ++ r)) = .ok r bs := by
      rw [value_run (printNat bs.length) bs.reverse r hne hdig
        (fun d hd => hc.1 d (by simpa using hd))
        (fun d hd => binary_char_not_space_nl (safeRest_head hr d hd))]
      rw [hval]
      rw [if_neg (by omega), if_neg (by simp)]
      simp
    unfold constant
    rw [hform]
    exact por_ok (pmap_run _ hv)
  | Integer i =>
    unfold wfConst at hc
    simp only [Bool.and_eq_true, decide_eq_true_eq] at hc
    unfold constant
    rw [por_err]
    · apply por_ok
      apply pmap_run
      exact integer_run i r hc.1 hc.2 (fun d hd => by
        rcases safeRest_head hr d hd with rfl | rfl <;> decide)
    · apply pmap_err_ex
      rw [show printConst (.Integer i) = printInt i from rfl]
      by_cases hneg : i < 0
      · refine value_err_nondigit (show (printInt i ++ r).head? = some '-' by
          simp [printInt, if_pos hneg]) (by decide)
      · rw [show printInt i = printNat i.toNat by simp [printInt, if_neg hneg]]
        exact value_err_noquote i.toNat
          (fun d hd => by rcases safeRest_head hr d hd with rfl | rfl <;> decide)
          (fun d hd => by rcases safeRest_head hr d hd with rfl | rfl <;> decide)
  | Str s =>
    unfold wfConst at hc
    simp only [List.all_eq_true] at hc
    unfold constant
    rw [por_err (pmap_err_ex _ (value_err_nondigit
        (show (printConst (.Str s) ++ r).head? = some '"' from rfl) (by decide))),
      por_err (pmap_err_ex _ (integer_err_head
        (show (printConst (.Str s) ++ r).head? = some '"' from rfl)
        (by decide) (by decide)))]
    apply pmap_run
    show stringP ('"' :: (s ++ ['"']) ++ r) = .ok r s
    rw [show ('"' :: (s ++ ['"']) ++ r) = '"' :: (s ++ '"' :: r) by simp]
    exact string_literal_run s r hc

/-! ### Signal specifications: auxiliary facts -/

theorem printConst_ne_nil (c : Constant) : printConst c ≠ [] := by
  cases c with
  | Value bs =>
    simp [printConst]
  | Integer i =>
    by_cases hneg : i < 0
    · simp [printConst, printInt, if_pos hneg]
    · have := (printNat_spec i.toNat).2.2
      simpa [printConst, printInt, if_neg hneg] using this
  | Str s => simp [printConst]

theorem printSig_ne_nil (t : SigSpec) : printSig t ≠ [] := by
  cases t with
  | Constant c => simpa [printSig] using printConst_ne_nil c
  | WireId s => simp [printSig]
  | Range b i e =>
    cases b <;> simp [printSig, printRangeId]
  | Concat l => simp [printSig]

theorem mem_of_headq {l : List Char} {c : Char} (h : l.head? = some c) : c ∈ l := by
  cases l with
  | nil => simp at h
  | cons a t =>
    simp at h
    subst h
    exact List.mem_cons_self _ _

theorem head_of_append_ne_nil {l r : List Char} {c : Char}
    (hne : l ≠ []) (h : (l ++ r).head? = some c) : l.head? = some c := by
  cases l with
  | nil => exact absurd rfl hne
  | cons a t => simpa using h

theorem printConst_head_facts (c0 : Constant) {c : Char}
    (h : (printConst c0).head? = some c) :
    is_sep c = false ∧ c ≠ '[' ∧ c ≠ '\n' := by
  cases c0 with
  | Value bs =>
    obtain ⟨hdig, _, hne⟩ := printNat_spec bs.length
    rw [show printConst (.Value bs) = printNat bs.length ++ '\'' :: bs.reverse from rfl] at h
    have hh := head_of_append_ne_nil hne h
    have := decimal_char_facts (hdig c (mem_of_headq hh))
    exact ⟨this.1, this.2.1, this.2.2.1⟩
  | Integer i =>
    by_cases hneg : i < 0
    · rw [show printConst (.Integer i) = '-' :: printNat i.natAbs by
        simp [printConst, printInt, if_pos hneg]] at h
      have hx : '-' = c := by simpa using h
      subst hx
      refine ⟨by decide, by decide, by decide⟩
    · obtain ⟨hdig, _, hne⟩ := printNat_spec i.toNat
      rw [show printConst (.Integer i) = printNat i.toNat by
        simp [printConst, printInt, if_neg hneg]] at h
      have := decimal_char_facts (hdig c (mem_of_headq h))
      exact ⟨this.1, this.2.1, this.2.2.1⟩
  | Str s =>
    have hx : '"' = c := by simpa [printConst] using h
    subst hx
    refine ⟨by decide, by decide, by decide⟩

theorem printSig_head_facts (t : SigSpec) {c : Char}
    (h : (printSig t).head? = some c) :
    is_sep c = false ∧ c ≠ '[' ∧ c ≠ '\n' := by
  cases t with
  | Constant c0 => exact printConst_head_facts c0 (by simpa [printSig] using h)
  | WireId s =>
    have hx : '\\' = c := by simpa [printSig] using h
    subst hx
    refine ⟨by decide, by decide, by decide⟩
  | Range b i e =>
    cases b with
    | WireId s =>
      have hx : '\\' = c := by simpa [printSig, printRangeId] using h
      subst hx
      refine ⟨by decide, by decide, by decide⟩
    | Constant c0 =>
      have hx : '!' = c := by simpa [printSig, printRangeId] using h
      subst hx
      refine ⟨by decide, by decide, by decide⟩
    | Range b2 i2 e2 =>
      have hx : '!' = c := by simpa [printSig, printRangeId] using h
      subst hx
      refine ⟨by decide, by decide, by decide⟩
    | Concat l2 =>
      have hx : '!' = c := by simpa [printSig, printRangeId] using h
      subst hx
      refine ⟨by decide, by decide, by decide⟩
  | Concat l =>
    have hx : '\x7b' = c := by simpa [printSig] using h
    subst hx
    refine ⟨by decide, by decide, by decide⟩

theorem sigspecF_err_head (f : Nat) {input : List Char} {c0 : Char}
    (h : input.head? = some c0)
    (hd : ("0123456789".toList).contains c0 = false)
    (hm : c0 ≠ '-') (hq : c0 ≠ '"') (hb : c0 ≠ '\\') (hdol : c0 ≠ '$')
    (hbr : c0 ≠ '\x7b') :
    ∃ e, sigspecF f input = .err e := by
  cases f with
  | zero => exact ⟨input, rfl⟩
  | succ f =>
    simp only [sigspecF]
    rw [por_err (pmap_err_ex _ (constant_err_head h hd hm hq))]
    have hiderr := idP_err h hb hdol
    rw [por_err (pmap_err_ex _ (by
      refine pbind_err_ex _ ?_
      exact hiderr))]
    rw [por_err (pmap_err_ex _ hiderr)]
    apply pmap_err_ex
    obtain ⟨e, he⟩ := hiderr
    refine pbind_err_ex _ ⟨input, ?_⟩
    cases input with
    | nil => simp at h
    | cons c t =>
      simp at h
      subst h
      exact tagP_err_head (show (c :: t).head? = some c from rfl)
        (show (['\x7b'] : List Char).head? = some '\x7b' from rfl) hbr

theorem wfSigList_mem : ∀ {l : List SigSpec}, wfSigList l = true →
    ∀ t ∈ l, wfSig t = true
  | [], _, t, ht => by simp at ht
  | s :: r, h, t, ht => by
    rw [wfSigList] at h
    simp only [Bool.and_eq_true] at h
    rcases List.mem_cons.mp ht with rfl | ht2
    · exact h.1
    · exact wfSigList_mem h.2 t ht2

theorem printSigList_eq_flatten : ∀ (l : List SigSpec),
    printSigList l = (l.map fun t => printSig t ++ [' ']).flatten
  | [] => rfl
  | s :: r => by
    simp only [printSigList, List.map_cons, List.flatten_cons,
      printSigList_eq_flatten r, List.append_assoc, List.singleton_append]

theorem printSigList_mem_length : ∀ {l : List SigSpec} {t : SigSpec}, t ∈ l →
    (printSig t).length + 1 ≤ (printSigList l).length
  | [], _, ht => by simp at ht
  | s :: r, t, ht => by
    rcases List.mem_cons.mp ht with rfl | ht2
    · simp [printSigList]
    · have := printSigList_mem_length ht2
      simp [printSigList]
      omega

theorem safeRestB_intro {rst : List Char}
    (h : ∀ c, rst.head? = some c → (c = ' ' ∨ c = '\n'))
    (h2 : ∀ c, (rst.dropWhile is_sep).head? = some c → c ≠ '[') :
    safeRestB rst = true := by
  unfold safeRestB
  refine (Bool.and_eq_true _ _).mpr ⟨?_, ?_⟩
  · cases hh : rst.head? with
    | none => rfl
    | some c =>
      rcases h c hh with rfl | rfl <;> rfl
  · cases hh : (rst.dropWhile is_sep).head? with
    | none => rfl
    | some c =>
      simpa using h2 c hh

theorem usizeOfInt_natCast (n : Nat) (h : n < 2 ^ 64) :
    usizeOfInt (n : Int) = n := by
  unfold usizeOfInt
  rw [Int.emod_eq_of_lt (by positivity) (by exact_mod_cast h)]
  simp

/-! ### Generic loop over printed items -/

theorem qFlat {α : Type} (pr : α → List Char) (Q : List Char → Prop) :
    ∀ (items : List α) (rest : List Char), Q rest →
      (∀ a ∈ items, ∀ X, Q X → Q (pr a ++ X)) →
      Q ((items.map pr).flatten ++ rest)
  | [], rest, hq, _ => by simpa using hq
  | a :: t, rest, hq, hstep => by
    have ht := qFlat pr Q t rest hq (fun b hb X hX => hstep b (List.mem_cons_of_mem a hb) X hX)
    have := hstep a (List.mem_cons_self a _) _ ht
    simpa [List.append_assoc] using this

theorem many0_items {α : Type} (p : P α) (pr : α → List Char) (Q : List Char → Prop) :
    ∀ (items : List α) (rest : List Char),
      Q rest → (∃ e, p rest = .err e) →
      (∀ a ∈ items, pr a ≠ []) →
      (∀ a ∈ items, ∀ X, Q X → p (pr a ++ X) = .ok X a) →
      (∀ a ∈ items, ∀ X, Q X → Q (pr a ++ X)) →
      many0 p ((items.map pr).flatten ++ rest) = .ok rest items
  | [], rest, _, hstop, _, _, _ => by simpa using many0_err_step hstop
  | a :: t, rest, hq, hstop, hne, hrun, hstep => by
    have htail := many0_items p pr Q t rest hq hstop
      (fun b hb => hne b (List.mem_cons_of_mem a hb))
      (fun b hb => hrun b (List.mem_cons_of_mem a hb))
      (fun b hb => hstep b (List.mem_cons_of_mem a hb))
    have hqX := qFlat pr Q t rest hq (fun b hb X hX => hstep b (List.mem_cons_of_mem a hb) X hX)
    have hhead := hrun a (List.mem_cons_self a _) _ hqX
    have hlt : ((t.map pr).flatten ++ rest).length <
        (pr a ++ ((t.map pr).flatten ++ rest)).length := by
      have := hne a (List.mem_cons_self a _)
      cases hp : pr a with
      | nil => exact absurd hp this
      | cons c cs =>
        simp
        omega
    have := many0_cons_step hhead hlt htail
    simpa [List.append_assoc] using this

theorem take_while1_ok_head {p : Char → Bool} {c : Char} {r : List Char}
    (h : p c = true) :
    take_while1 p (c :: r) = .ok ((c :: r).dropWhile p) (c :: r.takeWhile p) := by
  unfold take_while1
  rw [show (c :: r).takeWhile p = c :: r.takeWhile p by simp [List.takeWhile_cons, h]]

theorem sep_ok_head {c : Char} {r : List Char} (h : is_sep c = true) :
    sep (c :: r) = .ok ((c :: r).dropWhile is_sep) () := by
  show pbind (take_while1 is_sep) _ _ = _
  rw [pbind_run _ (take_while1_ok_head h)]
  rfl

theorem printInt_ofNat (n : Nat) : printInt (n : Int) = printNat n := by
  unfold printInt
  rw [if_neg (by simp)]
  simp

/-! ### Round trip for signal specifications -/

theorem sigspecF_rt : ∀ (f : Nat) (t : SigSpec) (r : List Char),
    wfSig t = true → (printSig t).length ≤ f → safeRestB r = true →
    sigspecF f (printSig t ++ r) = .ok r t := by
  intro f
  induction f with
  | zero =>
    intro t r _ hlen _
    have hne := printSig_ne_nil t
    cases hp : printSig t with
    | nil => exact absurd hp hne
    | cons c cs =>
      rw [hp] at hlen
      simp at hlen
  | succ f ih =>
    intro t r hw hlen hr
    cases t with
    | Constant c =>
      have hc : wfConst c = true := by simpa [wfSig] using hw
      simp only [sigspecF]
      exact por_ok (pmap_run _ (constant_run c r hc hr))
    | WireId s =>
      have hid : wfIdText s = true := by simpa [wfSig] using hw
      have hne : s ≠ [] := by
        unfold wfIdText at hid
        cases s with
        | nil => simp at hid
        | cons a b => simp
      have hall : ∀ c ∈ s, nonwsB c = true := by
        unfold wfIdText at hid
        simp only [Bool.and_eq_true, List.all_eq_true] at hid
        exact hid.2
      have hstopid : ∀ c, r.head? = some c → nonwsB c = false := fun c hc => by
        rcases safeRest_head hr c hc with rfl | rfl <;> decide
      have hp : printSig (.WireId s) ++ r = '\\' :: (s ++ r) := by simp [printSig]
      rw [hp]
      simp only [sigspecF]
      rw [por_err (pmap_err_ex _ (constant_err_head
        (show ('\\' :: (s ++ r)).head? = some '\\' from rfl)
        (by decide) (by decide) (by decide)))]
      have hrange : ∃ e, sigspec_range ('\\' :: (s ++ r)) = .err e := by
        unfold sigspec_range
        rw [bindP_eq, pbind_run _ (public_id_run hne hall hstopid)]
        show ∃ e, pbind sep _ r = .err e
        cases r with
        | nil => exact ⟨[], pbind_err _ (sep_err (fun c hc => by simp at hc))⟩
        | cons c0 r2 =>
          rcases safeRest_head hr c0 rfl with rfl | rfl
          · rw [pbind_run _ (sep_ok_head (by decide))]
            show ∃ e, pbind (tagP ['[']) _ _ = .err e
            cases hd : (' ' :: r2).dropWhile is_sep with
            | nil => exact ⟨[], pbind_err _ rfl⟩
            | cons d dt =>
              have hdne : d ≠ '[' := safeRest_dropSep hr d (by rw [hd]; rfl)
              exact ⟨d :: dt, pbind_err _ (tagP_err_head
                (show (d :: dt).head? = some d from rfl) rfl hdne)⟩
          · exact ⟨'\n' :: r2, pbind_err _ (sep_err (fun c hc => by
              simp at hc
              subst hc
              decide))⟩
      rw [por_err (pmap_err_ex _ hrange)]
      exact por_ok (pmap_run _ (public_id_run hne hall hstopid))
    | Range b i e =>
      cases b with
      | Constant c0 => simp [wfSig] at hw
      | Range b2 i2 e2 => simp [wfSig] at hw
      | Concat l2 => simp [wfSig] at hw
      | WireId s =>
        have hw' : (wfIdText s = true ∧ i < 2 ^ 31) ∧
            (match e with | none => true | some x => decide (x < 2 ^ 31)) = true := by
          have := hw
          simp only [wfSig, Bool.and_eq_true, decide_eq_true_eq] at this
          exact ⟨⟨this.1.1, this.1.2⟩, by
            cases e with
            | none => rfl
            | some x => simpa using this.2⟩
        obtain ⟨⟨hid, hi⟩, he⟩ := hw'
        have hne : s ≠ [] := by
          unfold wfIdText at hid
          cases s with
          | nil => simp at hid
          | cons a b => simp
        have hall : ∀ c ∈ s, nonwsB c = true := by
          unfold wfIdText at hid
          simp only [Bool.and_eq_true, List.all_eq_true] at hid
          exact hid.2
        have hform : printSig (.Range (.WireId s) i e) ++ r =
            '\\' :: (s ++ (' ' :: ('[' :: (printNat i ++
              (printRangeEnd e ++ (']' :: r)))))) := by
          simp [printSig, printRangeId, List.append_assoc]
        rw [hform]
        simp only [sigspecF]
        rw [por_err (pmap_err_ex _ (constant_err_head
          (show ('\\' :: (s ++ _)).head? = some '\\' from rfl)
          (by decide) (by decide) (by decide)))]
        have hrng : sigspec_range ('\\' :: (s ++ (' ' :: ('[' :: (printNat i ++
            (printRangeEnd e ++ (']' :: r))))))) =
            .ok r (SigSpec.WireId s, i, e) := by
          unfold sigspec_range
          rw [bindP_eq, pbind_run _ (public_id_run hne hall (fun c hc => by
            simp at hc
            subst hc
            decide))]
          show pbind sep _ _ = _
          rw [pbind_run _ (sep_run (fun c hc => by
            simp at hc
            subst hc
            decide))]
          show pbind (tagP ['[']) _ _ = _
          rw [show ('[' :: (printNat i ++ (printRangeEnd e ++ (']' :: r)))) =
            ['['] ++ (printNat i ++ (printRangeEnd e ++ (']' :: r))) from rfl,
            pbind_run _ (tagP_self _ _)]
          show pbind integer _ _ = _
          have hint : integer (printNat i ++ (printRangeEnd e ++ (']' :: r))) =
              .ok (printRangeEnd e ++ (']' :: r)) (i : Int) := by
            rw [← printInt_ofNat i]
            refine integer_run _ _ (by omega) (by exact_mod_cast hi) ?_
            cases e with
            | none =>
              intro c hc
              simp [printRangeEnd] at hc
              subst hc
              decide
            | some x =>
              intro c hc
              simp [printRangeEnd] at hc
              subst hc
              decide
          rw [pbind_run _ hint]
          show pbind (popt (tagP [':'])) _ _ = _
          cases e with
          | none =>
            rw [pbind_run _ (popt_none ⟨_, by
              show tagP [':'] ([] ++ (']' :: r)) = _
              exact tagP_err_head (show (']' :: r).head? = some ']' from rfl) rfl
                (by decide)⟩)]
            show pbind (ppure (none : Option Nat)) _ _ = _
            rw [pbind_run _ (ppure_apply _ _)]
            simp only [printRangeEnd, List.nil_append]
            show pbind (tagP [']']) _ _ = _
            rw [show ((']' :: r) : List Char) = [']'] ++ r from rfl,
              pbind_run _ (tagP_self _ _)]
            show PResult.ok r _ = _
            rw [show Id.toStr (.Public s) = s from rfl]
            rw [usizeOfInt_natCast i (by omega)]
          | some x =>
            have hx : x < 2 ^ 31 := by simpa using he
            rw [show (printRangeEnd (some x) ++ (']' :: r)) =
              [':'] ++ (printNat x ++ (']' :: r)) by simp [printRangeEnd]]
            rw [pbind_run _ (popt_run (tagP_self _ _))]
            show pbind integer _ _ = _
            have hint2 : integer (printNat x ++ (']' :: r)) =
                .ok (']' :: r) (x : Int) := by
              rw [← printInt_ofNat x]
              refine integer_run _ _ (by omega) (by exact_mod_cast hx) ?_
              intro c hc
              simp at hc
              subst hc
              decide
            rw [pbind_run _ hint2]
            show pbind (ppure (some (usizeOfInt (x : Int)))) _ _ = _
            rw [pbind_run _ (ppure_apply _ _)]
            show pbind (tagP [']']) _ _ = _
            rw [show ((']' :: r) : List Char) = [']'] ++ r from rfl,
              pbind_run _ (tagP_self _ _)]
            show PResult.ok r _ = _
            rw [show Id.toStr (.Public s) = s from rfl]
            rw [usizeOfInt_natCast i (by omega), usizeOfInt_natCast x (by omega)]
        exact por_ok (pmap_run _ hrng)
    | Concat l =>
      have hwl : wfSigList l = true := by simpa [wfSig] using hw
      have hform : printSig (.Concat l) ++ r =
          '\x7b' :: (' ' :: (printSigList l ++ ('\x7d' :: r))) := by
        simp [printSig, List.append_assoc]
      rw [hform]
      simp only [sigspecF]
      rw [por_err (pmap_err_ex _ (constant_err_head
        (show ('\x7b' :: _ : List Char).head? = some '\x7b' from rfl)
        (by decide) (by decide) (by decide)))]
      have hiderr := idP_err
        (show ('\x7b' :: (' ' :: (printSigList l ++ ('\x7d' :: r)))).head? =
          some '\x7b' from rfl) (by decide) (by decide)
      have hrangeerr : ∃ e, sigspec_range
          ('\x7b' :: (' ' :: (printSigList l ++ ('\x7d' :: r)))) = .err e := by
        unfold sigspec_range
        rw [bindP_eq]
        exact pbind_err_ex _ hiderr
      rw [por_err (pmap_err_ex _ hrangeerr)]
      rw [por_err (pmap_err_ex _ hiderr)]
      apply pmap_run
      show pbind (tagP ['\x7b']) _ _ = _
      rw [show ('\x7b' :: (' ' :: (printSigList l ++ ('\x7d' :: r)))) =
        ['\x7b'] ++ (' ' :: (printSigList l ++ ('\x7d' :: r))) from rfl,
        pbind_run _ (tagP_self _ _)]
      show pbind (take_while is_sep) _ _ = _
      have hnosep : ∀ c, (printSigList l ++ ('\x7d' :: r)).head? = some c →
          is_sep c = false := by
        intro c hc
        cases l with
        | nil =>
          simp [printSigList] at hc
          subst hc
          decide
        | cons a t =>
          have hh : (printSig a).head? = some c := by
            apply head_of_append_ne_nil (printSig_ne_nil a)
            rw [show printSigList (a :: t) = printSig a ++ (' ' :: printSigList t)
              from rfl] at hc
            rwa [List.append_assoc] at hc
          exact (printSig_head_facts a hh).1
      rw [pbind_run _ (show take_while is_sep
          (' ' :: (printSigList l ++ ('\x7d' :: r))) =
          .ok (printSigList l ++ ('\x7d' :: r)) [' '] from by
        have := take_while_run (l := [' ']) (r := printSigList l ++ ('\x7d' :: r))
          (by decide) hnosep
        simpa using this)]
      show pbind (many0 (terminated (sigspecF f) sep)) _ _ = _
      have hitems : many0 (terminated (sigspecF f) sep)
          (printSigList l ++ ('\x7d' :: r)) = .ok ('\x7d' :: r) l := by
        rw [printSigList_eq_flatten]
        refine many0_items (terminated (sigspecF f) sep)
          (fun t => printSig t ++ [' '])
          (fun X => ∀ c, X.head? = some c → (is_sep c = false ∧ c ≠ '[')) l
          ('\x7d' :: r) ?_ ?_ ?_ ?_ ?_
        · intro c hc
          simp at hc
          subst hc
          exact ⟨by decide, by decide⟩
        · refine pbind_err_ex _ ?_
          exact sigspecF_err_head f (show ('\x7d' :: r).head? = some '\x7d' from rfl)
            (by decide) (by decide) (by decide) (by decide) (by decide) (by decide)
        · intro a _
          simp [printSig_ne_nil a]
        · intro a ha X hQ
          have hwa := wfSigList_mem hwl a ha
          have hlena : (printSig a).length ≤ f := by
            have h1 := printSigList_mem_length ha
            have h2 : (printSig (.Concat l)).length = (printSigList l).length + 3 := by
              simp [printSig]
            omega
          have hXd : (' ' :: X).dropWhile is_sep = X := by
            rw [show (' ' :: X).dropWhile is_sep = X.dropWhile is_sep from rfl]
            exact dropWhile_head_false (fun c hc => (hQ c hc).1)
          have hsafe : safeRestB (' ' :: X) = true := by
            apply safeRestB_intro
            · intro c hc
              simp at hc
              subst hc
              exact Or.inl rfl
            · intro c hc
              rw [hXd] at hc
              exact (hQ c hc).2
          rw [show (printSig a ++ [' ']) ++ X = printSig a ++ (' ' :: X) by
            simp [List.append_assoc]]
          unfold terminated
          rw [bindP_eq, pbind_run _ (ih a (' ' :: X) hwa hlena hsafe)]
          show pbind sep _ _ = _
          rw [pbind_run _ (sep_run (fun c hc => (hQ c hc).1))]
          rfl
        · intro a ha X hQ c hc
          have hh : (printSig a).head? = some c := by
            apply head_of_append_ne_nil (printSig_ne_nil a)
            rwa [List.append_assoc] at hc
          have := printSig_head_facts a hh
          exact ⟨this.1, this.2.1⟩
      rw [pbind_run _ hitems]
      show pbind (tagP ['\x7d']) _ _ = _
      rw [show ('\x7d' :: r : List Char) = ['\x7d'] ++ r from rfl,
        pbind_run _ (tagP_self _ _)]
      rfl

/-! ### End-of-line and statement-level helpers -/

theorem eolSafe_head {r : List Char} (h : eolSafeB r = true) :
    ∀ c, r.head? = some c →
      (c ≠ '\n' ∧ c ≠ '\r' ∧ c ≠ '#' ∧ c ≠ ' ' ∧ c ≠ '\t') := by
  intro c hc
  unfold eolSafeB at h
  rw [hc] at h
  simp only [Bool.not_eq_true', Bool.or_eq_false_iff, decide_eq_false_iff_not] at h
  tauto

theorem newline_or_cr_err {r : List Char}
    (h : ∀ c, r.head? = some c → (c ≠ '\n' ∧ c ≠ '\r')) :
    por (tagP ['\n']) (tagP ['\r']) r = .err r := by
  cases r with
  | nil => rfl
  | cons c t =>
    have hc := h c rfl
    rw [por_err ⟨_, tagP_single_err hc.1⟩]
    exact tagP_single_err hc.2

theorem comment_err {r : List Char}
    (h : ∀ c, r.head? = some c → c ≠ '#') : ∃ e, comment r = .err e := by
  refine pbind_err_ex _ ?_
  cases r with
  | nil => exact ⟨[], rfl⟩
  | cons c t => exact ⟨c :: t, tagP_single_err (h c rfl)⟩

theorem eol_run {r : List Char} (h : eolSafeB r = true) :
    eol ('\n' :: r) = .ok r () := by
  have hfacts := eolSafe_head h
  show pbind (many1 (por (tagP ['\n']) (tagP ['\r']))) _ _ = _
  have hm1 : many1 (por (tagP ['\n']) (tagP ['\r'])) ('\n' :: r) = .ok r [['\n']] := by
    unfold many1
    rw [show por (tagP ['\n']) (tagP ['\r']) ('\n' :: r) = .ok r ['\n'] from
      por_ok (by
        rw [show ('\n' :: r) = ['\n'] ++ r from rfl]
        exact tagP_self _ _)]
    show pmap (fun l => ['\n'] :: l) (many0 (por (tagP ['\n']) (tagP ['\r']))) r =
      PResult.ok r [['\n']]
    rw [pmap_run _ (many0_err_step ⟨r, newline_or_cr_err
      (fun c hc => ⟨(hfacts c hc).1, (hfacts c hc).2.1⟩)⟩)]
  rw [pbind_run _ hm1]
  show pbind (many0 comment) _ _ = _
  rw [pbind_run _ (many0_err_step (comment_err (fun c hc => (hfacts c hc).2.2.1)))]
  show pbind (take_while is_sep) _ _ = _
  have hsp : take_while is_sep r = .ok r (r.takeWhile is_sep) := by
    unfold take_while
    rw [dropWhile_head_false (fun c hc => by
      have := hfacts c hc
      unfold is_sep
      simp only [Bool.or_eq_false_iff, decide_eq_false_iff_not]
      exact ⟨this.2.2.2.1, this.2.2.2.2⟩)]
  rw [pbind_run _ hsp]
  rfl

theorem eolSafeB_keyword {X : List Char} {c : Char} (hc : c ≠ '\n' ∧ c ≠ '\r' ∧ c ≠ '#' ∧ c ≠ ' ' ∧ c ≠ '\t') :
    eolSafeB (c :: X) = true := by
  unfold eolSafeB
  simp only [List.head?_cons]
  simp only [Bool.not_eq_true', Bool.or_eq_false_iff, decide_eq_false_iff_not]
  tauto

/-! ### Attribute statements -/

theorem printAttrs_eq_flatten : ∀ (l : List (List Char × Constant)),
    printAttrs l = (l.map printAttr).flatten
  | [] => rfl
  | kv :: t => by
    simp only [printAttrs, List.map_cons, List.flatten_cons, printAttrs_eq_flatten t]

theorem wfAttrs_mem {l : List (List Char × Constant)} (h : wfAttrs l = true) :
    ∀ kv ∈ l, wfIdText kv.1 = true ∧ wfConst kv.2 = true := by
  intro kv hkv
  unfold wfAttrs at h
  simp only [Bool.and_eq_true, List.all_eq_true] at h
  have := h.1 kv hkv
  simpa using this

theorem wfAttrs_nodup {l : List (List Char × Constant)} (h : wfAttrs l = true) :
    nodupKeys l = true := by
  unfold wfAttrs at h
  simp only [Bool.and_eq_true] at h
  exact h.2

theorem attr_stmt_run (k : List Char) (v : Constant) (rest : List Char)
    (hk : wfIdText k = true) (hv : wfConst v = true) (he : eolSafeB rest = true) :
    attr_stmt (printAttr (k, v) ++ rest) = .ok rest (k, v) := by
  have hkne : k ≠ [] := by
    unfold wfIdText at hk
    cases k with
    | nil => simp at hk
    | cons a b => simp
  have hkall : ∀ c ∈ k, nonwsB c = true := by
    unfold wfIdText at hk
    simp only [Bool.and_eq_true, List.all_eq_true] at hk
    exact hk.2
  have hsplit : ("attribute ".toList) = ("attribute".toList) ++ [' '] := rfl
  have hform : printAttr (k, v) ++ rest =
      ("attribute".toList) ++ (' ' :: ('\\' :: (k ++
        (' ' :: (printConst v ++ ('\n' :: rest)))))) := by
    simp [printAttr, hsplit, List.append_assoc]
  rw [hform]
  unfold attr_stmt
  rw [bindP_eq, pbind_run _ (tagP_self _ _)]
  show pbind sep _ _ = _
  rw [pbind_run _ (sep_run (fun c hc => by
    simp at hc
    subst hc
    decide))]
  show pbind idP _ _ = _
  rw [pbind_run _ (public_id_run hkne hkall (fun c hc => by
    simp at hc
    subst hc
    decide))]
  show pbind sep _ _ = _
  rw [pbind_run _ (sep_run (fun c hc => by
    have hh : (printConst v ++ ('\n' :: rest)).head? = some c := hc
    have hpc := printConst_head_facts v (head_of_append_ne_nil (printConst_ne_nil v) hh)
    exact hpc.1))]
  show pbind constant _ _ = _
  rw [pbind_run _ (constant_run v ('\n' :: rest) hv (by
    apply safeRestB_intro
    · intro c hc
      simp at hc
      subst hc
      exact Or.inr rfl
    · intro c hc
      rw [show ('\n' :: rest).dropWhile is_sep = '\n' :: rest from rfl] at hc
      simp at hc
      subst hc
      decide))]
  show pbind eol _ _ = _
  rw [pbind_run _ (eol_run he)]
  rfl

theorem attrs_run (attrs : List (List Char × Constant)) (rest : List Char)
    (hwf : ∀ kv ∈ attrs, wfIdText kv.1 = true ∧ wfConst kv.2 = true)
    (he : eolSafeB rest = true) (hstop : ∃ e, attr_stmt rest = .err e) :
    many0 attr_stmt (printAttrs attrs ++ rest) = .ok rest attrs := by
  rw [printAttrs_eq_flatten]
  refine many0_items attr_stmt printAttr (fun X => eolSafeB X = true)
    attrs rest he hstop ?_ ?_ ?_
  · intro kv _
    simp [printAttr]
  · intro kv hkv X hX
    have := hwf kv hkv
    have h1 := attr_stmt_run kv.1 kv.2 X this.1 this.2 hX
    simpa using h1
  · intro kv _ X _
    show eolSafeB ((("attribute ".toList) ++ _) ++ _) = true
    rfl

/-! ### Hash map collection -/

theorem insertA_of_not_mem {α : Type} :
    ∀ (m : List (List Char × α)) (k : List Char) (v : α),
      (∀ p ∈ m, p.1 ≠ k) → insertA m k v = m ++ [(k, v)]
  | [], _, _, _ => rfl
  | (k0, v0) :: t, k, v, h => by
    rw [insertA, if_neg (h (k0, v0) (List.mem_cons_self _ _)),
      insertA_of_not_mem t k v (fun p hp => h p (List.mem_cons_of_mem _ hp))]
    rfl

theorem nodupKeys_head {α : Type} {k : List Char} {v : α}
    {t : List (List Char × α)} (h : nodupKeys ((k, v) :: t) = true) :
    (∀ p ∈ t, p.1 ≠ k) ∧ nodupKeys t = true := by
  rw [nodupKeys] at h
  simp only [Bool.and_eq_true, List.all_eq_true] at h
  refine ⟨fun p hp => ?_, h.2⟩
  have := h.1 p hp
  simpa using this

theorem collect_go {α : Type} :
    ∀ (l m : List (List Char × α)),
      (∀ kv ∈ l, ∀ p ∈ m, p.1 ≠ kv.1) → nodupKeys l = true →
      l.foldl (fun acc kv => insertA acc kv.1 kv.2) m = m ++ l
  | [], m, _, _ => by simp
  | kv :: t, m, hdisj, hnd => by
    obtain ⟨hna, hnd2⟩ := nodupKeys_head (show nodupKeys ((kv.1, kv.2) :: t) = true by
      cases kv
      exact hnd)
    simp only [List.foldl_cons]
    rw [insertA_of_not_mem m kv.1 kv.2 (hdisj kv (List.mem_cons_self _ _))]
    rw [collect_go t (m ++ [(kv.1, kv.2)]) (fun kw hkw p hp => by
      rcases List.mem_append.mp hp with hp1 | hp2
      · exact hdisj kw (List.mem_cons_of_mem _ hkw) p hp1
      · have : p = (kv.1, kv.2) := by simpa using hp2
        subst this
        exact (hna kw hkw).symm
      ) hnd2]
    cases kv
    simp

theorem collectA_self {α : Type} {l : List (List Char × α)}
    (h : nodupKeys l = true) : collectA l = l := by
  unfold collectA
  rw [collect_go l [] (fun kv _ p hp => by simp at hp) h]
  simp

/-! ### Switch grammar: structural facts -/

theorem wfCaseList_mem : ∀ {l : List Case}, wfCaseList l = true → ∀ c ∈ l, wfCase c = true
  | [], _, c, hc => by simp at hc
  | a :: t, h, c, hc => by
    rw [wfCaseList] at h
    simp only [Bool.and_eq_true] at h
    rcases List.mem_cons.mp hc with rfl | hc2
    · exact h.1
    · exact wfCaseList_mem h.2 c hc2

theorem wfBodyList_mem : ∀ {l : List CaseBody}, wfBodyList l = true → ∀ b ∈ l, wfBody b = true
  | [], _, b, hb => by simp at hb
  | a :: t, h, b, hb => by
    rw [wfBodyList] at h
    simp only [Bool.and_eq_true] at h
    rcases List.mem_cons.mp hb with rfl | hb2
    · exact h.1
    · exact wfBodyList_mem h.2 b hb2

theorem printCaseList_mem_le : ∀ {l : List Case} {c : Case}, c ∈ l →
    (printCase c).length ≤ (printCaseList l).length
  | [], _, hc => by simp at hc
  | a :: t, c, hc => by
    rcases List.mem_cons.mp hc with rfl | hc2
    · simp [printCaseList]
    · have := printCaseList_mem_le hc2
      simp [printCaseList]
      omega

theorem printBodyList_mem_le : ∀ {l : List CaseBody} {b : CaseBody}, b ∈ l →
    (printBody b).length ≤ (printBodyList l).length
  | [], _, hb => by simp at hb
  | a :: t, b, hb => by
    rcases List.mem_cons.mp hb with rfl | hb2
    · simp [printBodyList]
    · have := printBodyList_mem_le hb2
      simp [printBodyList]
      omega

theorem printCaseList_eq_flatten : ∀ (l : List Case),
    printCaseList l = (l.map printCase).flatten
  | [] => rfl
  | c :: t => by
    simp only [printCaseList, List.map_cons, List.flatten_cons, printCaseList_eq_flatten t]

theorem printBodyList_eq_flatten : ∀ (l : List CaseBody),
    printBodyList l = (l.map printBody).flatten
  | [] => rfl
  | b :: t => by
    simp only [printBodyList, List.map_cons, List.flatten_cons, printBodyList_eq_flatten t]

theorem printCompareTail_eq_flatten : ∀ (l : List SigSpec),
    printCompareTail l = (l.map fun t => ' ' :: ',' :: ' ' :: printSig t).flatten
  | [] => rfl
  | s :: t => by
    simp only [printCompareTail, List.map_cons, List.flatten_cons,
      printCompareTail_eq_flatten t, List.cons_append, List.append_assoc]

theorem eolSafe_printAttr_cons (kv : List Char × Constant) (X : List Char) :
    eolSafeB ((printAttr kv ++ X)) = true := rfl

theorem eolSafe_printSwitch (sw : Switch) (X : List Char) :
    eolSafeB (printSwitch sw ++ X) = true := by
  cases sw with
  | mk attrs onSig cases =>
    cases attrs with
    | nil => rfl
    | cons kv t => rfl

theorem eolSafe_printCase (c : Case) (X : List Char) :
    eolSafeB (printCase c ++ X) = true := by
  cases c with
  | mk attrs cmp bodies =>
    cases attrs with
    | nil => rfl
    | cons kv t => rfl

theorem eolSafe_printBody (b : CaseBody) (X : List Char) :
    eolSafeB (printBody b ++ X) = true := by
  cases b with
  | sw s => exact eolSafe_printSwitch s X
  | assign ds => rfl

/-! ### Switch grammar: error stops -/

theorem switchF_err_gen (f : Nat) (attrs : List (List Char × Constant)) (X : List Char)
    (hwf : ∀ kv ∈ attrs, wfIdText kv.1 = true ∧ wfConst kv.2 = true)
    (heX : eolSafeB X = true)
    (hattrX : ∃ e, attr_stmt X = .err e)
    (hswX : tagP ("switch".toList) X = .err X) :
    ∃ e, switchF f (printAttrs attrs ++ X) = .err e := by
  cases f with
  | zero => exact ⟨_, rfl⟩
  | succ f =>
    simp only [switchF]
    rw [bindP_eq]
    refine pbind_err_ex _ ?_
    unfold switch_stmt
    rw [bindP_eq, pbind_run _ (attrs_run attrs X hwf heX hattrX)]
    exact pbind_err_ex _ ⟨X, hswX⟩

theorem assign_stmt_err_head {input : List Char} {c0 : Char}
    (h : input.head? = some c0) (hne : c0 ≠ 'a') :
    ∃ e, assign_stmt input = .err e := by
  refine pbind_err_ex _ ?_
  cases input with
  | nil => simp at h
  | cons c t =>
    simp at h
    subst h
    exact ⟨c :: t, tagP_err_head (show (c :: t).head? = some c from rfl) rfl hne⟩

theorem body_item_err_printCase (f : Nat) (c : Case) (X : List Char)
    (hwfc : wfCase c = true) (hX : eolSafeB X = true) :
    ∃ e, por (pmap CaseBody.sw (switchF f))
      (pmap CaseBody.assign assign_stmt) (printCase c ++ X) = .err e := by
  cases c with
  | mk attrs cmp bodies =>
    have hwfa : ∀ kv ∈ attrs, wfIdText kv.1 = true ∧ wfConst kv.2 = true := by
      have : wfAttrs attrs = true := by
        rw [wfCase] at hwfc
        simp only [Bool.and_eq_true] at hwfc
        exact hwfc.1.1
      exact wfAttrs_mem this
    have hform : printCase (.mk attrs cmp bodies) ++ X =
        printAttrs attrs ++ (("case ".toList) ++ (printCompareOpt cmp ++
          ('\n' :: (printBodyList bodies ++ X)))) := by
      simp [printCase, List.append_assoc]
    rw [hform]
    have hsw := switchF_err_gen f attrs
      (("case ".toList) ++ (printCompareOpt cmp ++ ('\n' :: (printBodyList bodies ++ X))))
      hwfa rfl ⟨_, rfl⟩ rfl
    obtain ⟨e1, he1⟩ := hsw
    rw [por_err (pmap_err_ex _ ⟨e1, he1⟩)]
    apply pmap_err_ex
    cases attrs with
    | nil => exact ⟨_, rfl⟩
    | cons kv t => exact ⟨_, rfl⟩

theorem body_item_err_end (f : Nat) (X : List Char) :
    ∃ e, por (pmap CaseBody.sw (switchF f))
      (pmap CaseBody.assign assign_stmt) (("end".toList) ++ ('\n' :: X)) = .err e := by
  have hsw := switchF_err_gen f [] (("end".toList) ++ ('\n' :: X))
    (by simp) rfl ⟨_, rfl⟩ rfl
  obtain ⟨e1, he1⟩ := hsw
  rw [por_err (pmap_err_ex _ ⟨e1, by simpa using he1⟩)]
  exact pmap_err_ex _ ⟨_, rfl⟩

/-! ### Switch grammar: successful runs -/

theorem sigspec_run (t : SigSpec) (rest : List Char)
    (hw : wfSig t = true) (hr : safeRestB rest = true) :
    sigspec (printSig t ++ rest) = .ok rest t := by
  unfold sigspec
  refine sigspecF_rt _ t rest hw ?_ hr
  simp
  omega

theorem safe_nl (Z : List Char) : safeRestB ('\n' :: Z) = true := rfl

theorem safe_space_sig (u : SigSpec) (Z : List Char) :
    safeRestB (' ' :: (printSig u ++ Z)) = true := by
  apply safeRestB_intro
  · intro c hc
    simp at hc
    subst hc
    exact Or.inl rfl
  · intro c hc
    rw [show (' ' :: (printSig u ++ Z)).dropWhile is_sep =
      (printSig u ++ Z).dropWhile is_sep from rfl] at hc
    rw [dropWhile_head_false (fun c2 hc2 =>
      (printSig_head_facts u (head_of_append_ne_nil (printSig_ne_nil u) hc2)).1)] at hc
    exact (printSig_head_facts u (head_of_append_ne_nil (printSig_ne_nil u) hc)).2.1

theorem assign_stmt_run (d s2 : SigSpec) (rest : List Char)
    (hd : wfSig d = true) (hs : wfSig s2 = true) (he : eolSafeB rest = true) :
    assign_stmt (printBody (.assign (d, s2)) ++ rest) = .ok rest (d, s2) := by
  have hsplit : ("assign ".toList) = ("assign".toList) ++ [' '] := rfl
  have hform : printBody (.assign (d, s2)) ++ rest =
      ("assign".toList) ++ (' ' :: (printSig d ++
        (' ' :: (printSig s2 ++ ('\n' :: rest))))) := by
    simp [printBody, hsplit, List.append_assoc]
  rw [hform]
  unfold assign_stmt
  rw [bindP_eq, pbind_run _ (tagP_self _ _)]
  show pbind sep _ _ = _
  rw [pbind_run _ (sep_run (fun c hc =>
    (printSig_head_facts d (head_of_append_ne_nil (printSig_ne_nil d) hc)).1))]
  show pbind sigspec _ _ = _
  rw [pbind_run _ (sigspec_run d _ hd (safe_space_sig s2 ('\n' :: rest)))]
  show pbind sep _ _ = _
  rw [pbind_run _ (sep_run (fun c hc =>
    (printSig_head_facts s2 (head_of_append_ne_nil (printSig_ne_nil s2) hc)).1))]
  show pbind sigspec _ _ = _
  rw [pbind_run _ (sigspec_run s2 _ hs (safe_nl rest))]
  show pbind eol _ _ = _
  rw [pbind_run _ (eol_run he)]
  rfl

theorem compare_run (x : SigSpec) (xs : List SigSpec) (Z : List Char)
    (hwx : wfSig x = true) (hwxs : ∀ u ∈ xs, wfSig u = true) :
    compare ((printCompare (x :: xs)) ++ ('\n' :: Z)) = .ok ('\n' :: Z) (x :: xs) := by
  have hform : (printCompare (x :: xs)) ++ ('\n' :: Z) =
      printSig x ++ (printCompareTail xs ++ ('\n' :: Z)) := by
    simp [printCompare, List.append_assoc]
  rw [hform]
  have hsafe1 : safeRestB (printCompareTail xs ++ ('\n' :: Z)) = true := by
    cases xs with
    | nil => exact safe_nl Z
    | cons u us => rfl
  have hmany : many0 (pbind sep (fun _ => pbind (tagP [',']) (fun _ =>
      pbind sep (fun _ => sigspec))))
      ((xs.map (fun u => ' ' :: ',' :: ' ' :: printSig u)).flatten ++ ('\n' :: Z)) =
      .ok ('\n' :: Z) xs := by
    refine many0_items _ (fun u => ' ' :: ',' :: ' ' :: printSig u)
      (fun X => safeRestB X = true) xs ('\n' :: Z) (safe_nl Z) ?_ ?_ ?_ ?_
    · exact ⟨_, pbind_err _ (sep_err (fun c hc => by
        simp at hc
        subst hc
        decide))⟩
    · intro u _
      simp
    · intro u hu X hX
      rw [show ((' ' :: ',' :: ' ' :: printSig u) ++ X) =
        ' ' :: (',' :: (' ' :: (printSig u ++ X))) by simp]
      rw [pbind_run _ (sep_run (fun c hc => by
        simp at hc
        subst hc
        decide))]
      show pbind (tagP [',']) _ _ = _
      rw [show (',' :: (' ' :: (printSig u ++ X))) =
        [','] ++ (' ' :: (printSig u ++ X)) from rfl, pbind_run _ (tagP_self _ _)]
      show pbind sep _ _ = _
      rw [pbind_run _ (sep_run (fun c hc =>
        (printSig_head_facts u (head_of_append_ne_nil (printSig_ne_nil u) hc)).1))]
      exact sigspec_run u X (hwxs u hu) hX
    · intro u _ X _
      rfl
  unfold compare
  rw [bindP_eq, pbind_run _ (sigspec_run x _ hwx hsafe1)]
  show pbind (many0 (pbind sep (fun _ => pbind (tagP [',']) (fun _ =>
    pbind sep (fun _ => sigspec))))) (fun others => ppure (x :: others)) _ = _
  rw [printCompareTail_eq_flatten, pbind_run _ hmany]
  rfl

theorem case_stmt_run (cmp : Option (List SigSpec)) (rest : List Char)
    (hw : wfCmp cmp = true) (he : eolSafeB rest = true) :
    case_stmt (("case".toList) ++ (' ' :: (printCompareOpt cmp ++ ('\n' :: rest)))) =
      .ok rest cmp := by
  cases cmp with
  | none =>
    have hform : (("case".toList) ++ (' ' :: (printCompareOpt none ++ ('\n' :: rest)))) =
        ("case".toList) ++ (' ' :: ('\n' :: rest)) := by
      simp [printCompareOpt]
    rw [hform]
    unfold case_stmt
    rw [bindP_eq, pbind_run _ (tagP_self _ _)]
    show pbind sep _ _ = _
    rw [pbind_run _ (sep_run (fun c hc => by
      simp at hc
      subst hc
      decide))]
    show pbind (popt compare) _ _ = _
    rw [pbind_run _ (popt_none (by
      unfold compare
      rw [bindP_eq]
      refine pbind_err_ex _ ?_
      unfold sigspec
      exact sigspecF_err_head _ (show ('\n' :: rest).head? = some '\n' from rfl)
        (by decide) (by decide) (by decide) (by decide) (by decide) (by decide)))]
    show pbind eol _ _ = _
    rw [pbind_run _ (eol_run he)]
    rfl
  | some l =>
    have hl : l ≠ [] ∧ wfSigList l = true := by
      unfold wfCmp at hw
      simp only [Bool.and_eq_true, Bool.not_eq_true', List.isEmpty_eq_false] at hw
      exact hw
    cases l with
    | nil => exact absurd rfl hl.1
    | cons x xs =>
      have hwx : wfSig x = true := wfSigList_mem hl.2 x (List.mem_cons_self _ _)
      have hwxs : ∀ u ∈ xs, wfSig u = true := fun u hu =>
        wfSigList_mem hl.2 u (List.mem_cons_of_mem _ hu)
      unfold case_stmt
      rw [bindP_eq, pbind_run _ (tagP_self _ _)]
      show pbind sep _ _ = _
      rw [pbind_run _ (sep_run (fun c hc => by
        have hh : ((printCompare (x :: xs)) ++ ('\n' :: rest)).head? = some c := by
          simpa [printCompareOpt, printCompare, List.append_assoc] using hc
        have hx := head_of_append_ne_nil (l := printSig x)
          (r := printCompareTail xs ++ ('\n' :: rest)) (printSig_ne_nil x) (by
            simpa [printCompare, List.append_assoc] using hh)
        exact (printSig_head_facts x hx).1))]
    -- after the separator the compare list parses
      show pbind (popt compare) _ _ = _
      rw [show printCompareOpt (some (x :: xs)) ++ ('\n' :: rest) =
        (printCompare (x :: xs)) ++ ('\n' :: rest) from rfl]
      rw [pbind_run _ (popt_run (compare_run x xs rest hwx hwxs))]
      show pbind eol _ _ = _
      rw [pbind_run _ (eol_run he)]
      rfl

theorem switch_end_run (rest : List Char) (he : eolSafeB rest = true) :
    switch_end_stmt (("end".toList) ++ ('\n' :: rest)) = .ok rest [] := by
  unfold switch_end_stmt
  rw [bindP_eq, pbind_run _ (tagP_self _ _)]
  show pbind eol _ _ = _
  rw [pbind_run _ (eol_run he)]
  rfl

theorem switch_stmt_run (attrs : List (List Char × Constant)) (onSig : SigSpec)
    (Y : List Char)
    (hwfa : ∀ kv ∈ attrs, wfIdText kv.1 = true ∧ wfConst kv.2 = true)
    (hwon : wfSig onSig = true) (heY : eolSafeB Y = true) :
    switch_stmt (printAttrs attrs ++ (("switch".toList) ++
      (' ' :: (printSig onSig ++ ('\n' :: Y))))) = .ok Y (collectA attrs, onSig) := by
  unfold switch_stmt
  rw [bindP_eq, pbind_run _ (attrs_run attrs (("switch".toList) ++
    (' ' :: (printSig onSig ++ ('\n' :: Y)))) hwfa rfl ⟨_, rfl⟩)]
  show pbind (tagP _) _ _ = _
  rw [pbind_run _ (tagP_self _ _)]
  show pbind sep _ _ = _
  rw [pbind_run _ (sep_run (fun c hc =>
    (printSig_head_facts onSig
      (head_of_append_ne_nil (printSig_ne_nil onSig) hc)).1))]
  show pbind sigspec _ _ = _
  rw [pbind_run _ (sigspec_run onSig _ hwon (safe_nl Y))]
  show pbind eol _ _ = _
  rw [pbind_run _ (eol_run heY)]
  rfl

theorem printSwitch_ne_nil (sw : Switch) : printSwitch sw ≠ [] := by
  cases sw with
  | mk attrs onSig cases =>
    cases attrs with
    | nil => simp [printSwitch, printAttrs]
    | cons kv t => simp [printSwitch, printAttrs, printAttr]

theorem printCase_ne_nil (c : Case) : printCase c ≠ [] := by
  cases c with
  | mk attrs cmp bodies =>
    cases attrs with
    | nil => simp [printCase, printAttrs]
    | cons kv t => simp [printCase, printAttrs, printAttr]

theorem printBody_ne_nil (b : CaseBody) : printBody b ≠ [] := by
  cases b with
  | sw s => exact printSwitch_ne_nil s
  | assign ds => simp [printBody]

theorem eolSafe_bodyList (l : List CaseBody) (X : List Char)
    (hX : eolSafeB X = true) : eolSafeB (printBodyList l ++ X) = true := by
  cases l with
  | nil => simpa [printBodyList]
  | cons b t =>
    rw [printBodyList, List.append_assoc]
    exact eolSafe_printBody b _

theorem eolSafe_caseList (l : List Case) (X : List Char)
    (hX : eolSafeB X = true) : eolSafeB (printCaseList l ++ X) = true := by
  cases l with
  | nil => simpa [printCaseList]
  | cons c t =>
    rw [printCaseList, List.append_assoc]
    exact eolSafe_printCase c _

theorem caseP_err_end (f : Nat) (X : List Char) :
    ∃ e, caseP f (("end".toList) ++ ('\n' :: X)) = .err e := by
  have h1 : ∃ e, case_stmt (("end".toList) ++ ('\n' :: X)) = .err e := by
    unfold case_stmt
    rw [bindP_eq]
    exact pbind_err_ex _ ⟨_, rfl⟩
  obtain ⟨e, he⟩ := h1
  refine ⟨e, ?_⟩
  have ha : attr_stmt (("end".toList) ++ ('\n' :: X)) =
      .err (("end".toList) ++ ('\n' :: X)) := rfl
  unfold caseP
  rw [bindP_eq, pbind_run _ (many0_err_step ⟨_, ha⟩)]
  show pbind case_stmt _ _ = _
  rw [pbind_err _ he]

theorem case_body_run (f : Nat)
    (IH : ∀ (t : Switch) (r : List Char), wfSwitch t = true →
      (printSwitch t).length ≤ f → eolSafeB r = true →
      switchF f (printSwitch t ++ r) = .ok r t)
    (bodies : List CaseBody) (X : List Char)
    (hwf : wfBodyList bodies = true)
    (hlen : (printBodyList bodies).length ≤ f)
    (hX : eolSafeB X = true)
    (hstop : ∃ e, por (pmap CaseBody.sw (switchF f))
      (pmap CaseBody.assign assign_stmt) X = .err e) :
    case_body f (printBodyList bodies ++ X) = .ok X bodies := by
  unfold case_body
  rw [printBodyList_eq_flatten]
  refine many0_items _ printBody (fun X2 => eolSafeB X2 = true)
    bodies X hX hstop ?_ ?_ ?_
  · intro b _
    exact printBody_ne_nil b
  · intro b hb X2 hX2
    cases b with
    | sw sw2 =>
      have hwsw : wfSwitch sw2 = true := by
        have := wfBodyList_mem hwf _ hb
        simpa [wfBody] using this
      have hlensw : (printSwitch sw2).length ≤ f := by
        have h1 := printBodyList_mem_le hb
        have h2 : (printBody (CaseBody.sw sw2)).length = (printSwitch sw2).length := rfl
        omega
      rw [show printBody (CaseBody.sw sw2) = printSwitch sw2 from rfl]
      exact por_ok (pmap_run _ (IH sw2 X2 hwsw hlensw hX2))
    | assign ds =>
      have hwa : wfSig ds.1 = true ∧ wfSig ds.2 = true := by
        have := wfBodyList_mem hwf _ hb
        simp only [wfBody, Bool.and_eq_true] at this
        exact this
      have hsw : ∃ e, pmap CaseBody.sw (switchF f)
          (printBody (CaseBody.assign ds) ++ X2) = .err e := by
        refine pmap_err_ex _ ?_
        obtain ⟨e1, he1⟩ := switchF_err_gen f []
          (printBody (CaseBody.assign ds) ++ X2) (by simp)
          (eolSafe_printBody _ _) ⟨_, rfl⟩ rfl
        exact ⟨e1, by simpa using he1⟩
      rw [por_err hsw]
      have := assign_stmt_run ds.1 ds.2 X2 hwa.1 hwa.2 hX2
      rw [show (ds.1, ds.2) = ds from rfl] at this
      exact pmap_run _ this
  · intro b _ X2 _
    exact eolSafe_printBody b X2

theorem caseP_run (f : Nat)
    (IH : ∀ (t : Switch) (r : List Char), wfSwitch t = true →
      (printSwitch t).length ≤ f → eolSafeB r = true →
      switchF f (printSwitch t ++ r) = .ok r t)
    (c : Case) (X : List Char)
    (hwf : wfCase c = true)
    (hlen : (printCase c).length ≤ f)
    (hX : eolSafeB X = true)
    (hstop : ∃ e, por (pmap CaseBody.sw (switchF f))
      (pmap CaseBody.assign assign_stmt) X = .err e) :
    caseP f (printCase c ++ X) = .ok X c := by
  cases c with
  | mk attrs cmp bodies =>
    rw [wfCase] at hwf
    simp only [Bool.and_eq_true] at hwf
    obtain ⟨⟨hwa, hwc⟩, hwb⟩ := hwf
    have hsplit : ("case ".toList) = ("case".toList) ++ [' '] := rfl
    have hform : printCase (.mk attrs cmp bodies) ++ X =
        printAttrs attrs ++ (("case".toList) ++ (' ' :: (printCompareOpt cmp
          ++ ('\n' :: (printBodyList bodies ++ X))))) := by
      simp [printCase, hsplit, List.append_assoc]
    rw [hform]
    unfold caseP
    rw [bindP_eq]
    rw [pbind_run _ (attrs_run attrs (("case".toList) ++ (' ' :: (printCompareOpt cmp
      ++ ('\n' :: (printBodyList bodies ++ X))))) (wfAttrs_mem hwa) rfl ⟨_, rfl⟩)]
    show pbind case_stmt _ _ = _
    rw [pbind_run _ (case_stmt_run cmp (printBodyList bodies ++ X) hwc
      (eolSafe_bodyList bodies X hX))]
    show pbind (case_body f) _ _ = _
    have hlenb : (printBodyList bodies).length ≤ f := by
      simp [printCase] at hlen
      omega
    rw [pbind_run _ (case_body_run f IH bodies X hwb hlenb hX hstop)]
    show ppure _ _ = _
    rw [collectA_self (wfAttrs_nodup hwa)]
    rfl

/-- Round trip for the fueled switch parser: any well-formed switch tree
printed canonically re-parses exactly, leaving the continuation intact. -/
theorem switchF_rt : ∀ (f : Nat) (t : Switch) (rest : List Char),
    wfSwitch t = true → (printSwitch t).length ≤ f → eolSafeB rest = true →
    switchF f (printSwitch t ++ rest) = .ok rest t := by
  intro f
  induction f with
  | zero =>
    intro t rest hw hlen he
    exfalso
    have hl : 0 < (printSwitch t).length :=
      List.length_pos.mpr (printSwitch_ne_nil t)
    omega
  | succ f ih =>
    intro t rest hw hlen he
    cases t with
    | mk attrs onSig cases =>
      rw [wfSwitch] at hw
      simp only [Bool.and_eq_true] at hw
      obtain ⟨⟨hwa, hwon⟩, hwcs⟩ := hw
      have hsplit1 : ("switch ".toList) = ("switch".toList) ++ [' '] := rfl
      have hsplit2 : ("end\n".toList) = ("end".toList) ++ ['\n'] := rfl
      have hform : printSwitch (.mk attrs onSig cases) ++ rest =
          printAttrs attrs ++ (("switch".toList) ++ (' ' :: (printSig onSig ++
            ('\n' :: (printCaseList cases ++ (("end".toList) ++ ('\n' :: rest))))))) := by
        simp [printSwitch, hsplit1, hsplit2, List.append_assoc]
      rw [hform]
      simp only [switchF]
      rw [bindP_eq]
      rw [pbind_run _ (switch_stmt_run attrs onSig
        (printCaseList cases ++ (("end".toList) ++ ('\n' :: rest)))
        (wfAttrs_mem hwa) hwon (eolSafe_caseList cases _ rfl))]
      show pbind (many0 (caseP f)) _ _ = _
      have hcases : many0 (caseP f)
          (printCaseList cases ++ (("end".toList) ++ ('\n' :: rest))) =
          .ok (("end".toList) ++ ('\n' :: rest)) cases := by
        rw [printCaseList_eq_flatten]
        refine many0_items _ printCase
          (fun X => eolSafeB X = true ∧ (∃ e, por (pmap CaseBody.sw (switchF f))
            (pmap CaseBody.assign assign_stmt) X = .err e))
          cases (("end".toList) ++ ('\n' :: rest))
          ⟨rfl, body_item_err_end f rest⟩ (caseP_err_end f rest) ?_ ?_ ?_
        · intro c _
          exact printCase_ne_nil c
        · intro c hc X hX
          have hlenc : (printCase c).length ≤ f := by
            have h1 := printCaseList_mem_le hc
            simp [printSwitch] at hlen
            omega
          exact caseP_run f ih c X (wfCaseList_mem hwcs c hc) hlenc hX.1 hX.2
        · intro c hc X hX
          exact ⟨eolSafe_printCase c X,
            body_item_err_printCase f c X (wfCaseList_mem hwcs c hc) hX.1⟩
      rw [pbind_run _ hcases]
      show pbind switch_end_stmt _ _ = _
      rw [pbind_run _ (switch_end_run rest he)]
      show ppure (Switch.mk (collectA attrs) onSig cases) _ = _
      rw [collectA_self (wfAttrs_nodup hwa)]
      rfl

/-- Round trip for `switch::switch` itself (fuel instantiated). -/
theorem switchP_rt (t : Switch) (rest : List Char)
    (hw : wfSwitch t = true) (he : eolSafeB rest = true) :
    switchP (printSwitch t ++ rest) = .ok rest t := by
  unfold switchP
  refine switchF_rt _ t rest hw ?_ he
  simp
  omega

/-! ### End-of-line and comment absorption -/

theorem comment_run (cs rest : List Char)
    (hcs : ∀ c ∈ cs, (!(c = '\n' || c = '\r')) = true) :
    comment ('#' :: (cs ++ ('\n' :: rest))) = .ok rest cs := by
  unfold comment
  rw [bindP_eq]
  rw [show ('#' :: (cs ++ ('\n' :: rest))) = ['#'] ++ (cs ++ ('\n' :: rest)) from rfl,
    pbind_run _ (tagP_self _ _)]
  show pbind (take_while _) _ _ = _
  rw [pbind_run _ (take_while_run hcs (fun c hc => by
    simp at hc
    subst hc
    decide))]
  show pbind (por (tagP ['\n']) _) _ _ = _
  rw [pbind_run _ (por_ok (show tagP ['\n'] ('\n' :: rest) = .ok rest ['\n'] from
    tagP_self ['\n'] rest))]
  rfl

theorem eol_comment_run (cs rest : List Char)
    (hcs : ∀ c ∈ cs, (!(c = '\n' || c = '\r')) = true)
    (hrest : eolSafeB rest = true) :
    eol ('\n' :: ('#' :: (cs ++ ('\n' :: rest)))) = .ok rest () := by
  have hfacts := eolSafe_head hrest
  have hm1 : many1 (por (tagP ['\n']) (tagP ['\r']))
      ('\n' :: ('#' :: (cs ++ ('\n' :: rest)))) =
      .ok ('#' :: (cs ++ ('\n' :: rest))) [['\n']] := by
    unfold many1
    rw [show por (tagP ['\n']) (tagP ['\r']) ('\n' :: ('#' :: (cs ++ ('\n' :: rest)))) =
      .ok ('#' :: (cs ++ ('\n' :: rest))) ['\n'] from por_ok (tagP_self ['\n'] _)]
    show pmap (fun l => ['\n'] :: l) (many0 (por (tagP ['\n']) (tagP ['\r']))) _ = _
    rw [pmap_run _ (many0_err_step ⟨_, newline_or_cr_err (fun c hc => by
      simp at hc
      subst hc
      decide)⟩)]
  unfold eol
  rw [bindP_eq, pbind_run _ hm1]
  show pbind (many0 comment) _ _ = _
  have hm0 : many0 comment ('#' :: (cs ++ ('\n' :: rest))) = .ok rest [cs] :=
    many0_cons_step (comment_run cs rest hcs)
      (by
        simp
        omega)
      (many0_err_step (comment_err (fun c hc => (hfacts c hc).2.2.1)))
  rw [pbind_run _ hm0]
  show pbind (take_while is_sep) _ _ = _
  have hsep : ∀ c, rest.head? = some c → is_sep c = false := fun c hc => by
    have h5 := hfacts c hc
    simp [is_sep]
    exact ⟨h5.2.2.2.1, h5.2.2.2.2⟩
  have htw : take_while is_sep rest = .ok rest [] := by
    unfold take_while
    rw [takeWhile_head_false hsep, dropWhile_head_false hsep]
  rw [pbind_run _ htw]
  rfl

/-! ## The claims -/

/-- C1 (amended): decoding a sized bit-vector literal `<n>'<bits>` — for a
declared width within `i64` range, when the digit count equals the
declared width the bits come back reversed (most-significant first); when
exactly one bit character was supplied and the width differs from one the
bit is replicated to the declared width (so a zero width gives the empty
vector); any other width/length mismatch is a fatal, unrecoverable stop
(the source's `unimplemented!`).  A declared width past `i64::MAX`,
however, panics at the width's `parse::<i64>().unwrap()` before the
replication rule can apply (see the counterexample). -/
theorem claim_C1_value_decoding (ds bits r : List Char)
    (hne : ds ≠ [])
    (hds : ∀ c ∈ ds, (("0123456789").toList).contains c = true)
    (hbits : ∀ c ∈ bits, (("01xzXZmM-").toList).contains c = true)
    (hr : ∀ c, r.head? = some c → (("01xzXZmM-").toList).contains c = false) :
    (digitsVal ds ≤ 2 ^ 63 - 1 → digitsVal ds = bits.length →
      value (ds ++ '\'' :: (bits ++ r)) = .ok r bits.reverse) ∧
    (digitsVal ds ≤ 2 ^ 63 - 1 → ∀ b, bits = [b] → digitsVal ds ≠ 1 →
      value (ds ++ '\'' :: (bits ++ r)) = .ok r (List.replicate (digitsVal ds) b)) ∧
    (digitsVal ds ≤ 2 ^ 63 - 1 → digitsVal ds ≠ bits.length → (∀ b, bits ≠ [b]) →
      value (ds ++ '\'' :: (bits ++ r)) = .panic) ∧
    (digitsVal ds > 2 ^ 63 - 1 →
      value (ds ++ '\'' :: (bits ++ r)) = .panic) := by
  have hv := value_run ds bits r hne hds hbits hr
  refine ⟨?_, ?_, ?_, ?_⟩
  · intro hw heq
    rw [hv, if_neg (by omega), if_neg (by omega)]
  · intro hw b hb hne1
    subst hb
    rw [hv, if_neg (by omega), if_pos (by simpa using hne1)]
  · intro hw hne2 hns
    rw [hv, if_neg (by omega), if_pos hne2]
    cases bits with
    | nil => rfl
    | cons b t =>
      cases t with
      | nil => exact absurd rfl (hns b)
      | cons c t2 => rfl
  · intro hw
    rw [hv, if_pos hw]

/-- C1 witness: `0'x` decodes to the empty bit-vector by the single-bit
replication rule. -/
theorem claim_C1_witness :
    value (['0'] ++ '\'' :: (['x'] ++ [])) =
      .ok [] (List.replicate (digitsVal ['0']) 'x') :=
  (claim_C1_value_decoding ['0'] ['x'] [] (by decide) (by decide) (by decide)
    (fun c hc => absurd hc (by simp))).2.1 (by decide) 'x' rfl (by decide)

/-- C1 counterexample: the claim promises single-bit replication for every
width other than one, but the literal with declared width `2^63` (past
`i64::MAX`) and a single supplied bit panics at the width's
`parse::<i64>().unwrap()` instead of replicating. -/
theorem claim_C1_width_cex :
    value (("9223372036854775808'x").toList) = .panic := rfl

/-- C2 (amended): an unterminated string yields a located error, but a
sized bit-vector literal whose declared width disagrees with more than one
supplied bit, and a decimal integer literal past the 32-bit signed range,
both panic instead of returning an error. -/
theorem claim_C2_malformed :
    stringP (("\"abc").toList) = .err [] ∧
    value (("3'01").toList) = .panic ∧
    integer (("2147483648").toList) = .panic :=
  ⟨rfl, rfl, rfl⟩

/-- C2 counterexample: the claim says malformed input never panics, yet the
width-mismatched literal `3'01` drives the value parser into a panic. -/
theorem claim_C2_malformed_cex :
    value (("3'01").toList) = .panic := rfl

/-- C3: switch/case parsing reconstructs every well-formed switch tree
exactly — attributes attached at each nesting level, cases and case-body
items in declared order, to arbitrary recursive depth. -/
theorem claim_C3_switch_nesting (t : Switch) (rest : List Char)
    (hw : wfSwitch t = true) (he : eolSafeB rest = true) :
    switchP (printSwitch t ++ rest) = .ok rest t :=
  switchP_rt t rest hw he

/-- C3 witness: a concrete two-level switch with attributes on the outer
switch, on a case, and on the nested switch, and an assignment beside the
nested switch, round-trips exactly. -/
theorem claim_C3_witness :
    wfSwitch nestedSwitchDemo = true ∧
    switchP (printSwitch nestedSwitchDemo ++ []) = .ok [] nestedSwitchDemo :=
  ⟨by decide, claim_C3_switch_nesting nestedSwitchDemo [] (by decide) (by decide)⟩

/-- C4: concatenation preserves the declared left-to-right element order —
concretely for `{ \A [12:5] \A [13] }`, and in general parsing a printed
concatenation returns its elements in exactly the printed order. -/
theorem claim_C4_concat_order :
    (sigspec (("\x7b \\A [12:5] \\A [13] \x7d").toList) =
      .ok [] (SigSpec.Concat [SigSpec.Range (SigSpec.WireId ['A']) 12 (some 5),
        SigSpec.Range (SigSpec.WireId ['A']) 13 none])) ∧
    (∀ (l : List SigSpec) (rest : List Char), wfSigList l = true →
      safeRestB rest = true →
      sigspec (printSig (SigSpec.Concat l) ++ rest) = .ok rest (SigSpec.Concat l)) :=
  ⟨rfl, fun l rest hw hr => sigspec_run (SigSpec.Concat l) rest hw hr⟩

/-- C4 witness: a two-element concatenation of wire references re-parses in
order. -/
theorem claim_C4_witness :
    wfSigList [SigSpec.WireId ['w'], SigSpec.WireId ['v']] = true ∧
    sigspec (printSig (SigSpec.Concat [SigSpec.WireId ['w'], SigSpec.WireId ['v']]) ++ []) =
      .ok [] (SigSpec.Concat [SigSpec.WireId ['w'], SigSpec.WireId ['v']]) :=
  ⟨by decide, claim_C4_concat_order.2 [SigSpec.WireId ['w'], SigSpec.WireId ['v']] []
    (by decide) (by decide)⟩

/-- C5: string decoding — `\n` to newline, `\t` to tab, `\"` to a double
quote, a 1–3 digit octal escape to the byte of that value, a backslash
followed by a whitespace run to nothing (backslash and run both elided),
and unescaped characters other than quote and backslash copied verbatim. -/
theorem claim_C5_string_escapes :
    (∀ r, parse_escaped_char ('\\' :: 'n' :: r) = .ok r '\n') ∧
    (∀ r, parse_escaped_char ('\\' :: 't' :: r) = .ok r '\t') ∧
    (∀ r, parse_escaped_char ('\\' :: '"' :: r) = .ok r '"') ∧
    (∀ ds r, ds ≠ [] → ds.length ≤ 3 → (∀ c ∈ ds, is_oct_digit c = true) →
      (ds.length = 3 ∨ ∀ c, r.head? = some c → is_oct_digit c = false) →
      octVal ds ≤ 255 →
      parse_escaped_char ('\\' :: (ds ++ r)) = .ok r (Char.ofNat (octVal ds))) ∧
    (∀ ws lit r, ws ≠ [] → (∀ c ∈ ws, is_multispace c = true) →
      (∀ c ∈ lit, (!(c = '"' || c = '\\')) = true) →
      (∀ c, lit.head? = some c → is_multispace c = false) →
      stringP ('"' :: '\\' :: (ws ++ (lit ++ '"' :: r))) = .ok r lit) ∧
    (∀ s r, (∀ c ∈ s, (!(c = '"' || c = '\\')) = true) →
      stringP ('"' :: (s ++ '"' :: r)) = .ok r s) :=
  ⟨escaped_char_n, escaped_char_t, escaped_char_quote,
   fun ds r h1 h2 h3 h4 h5 => escaped_char_octal ds r h1 h2 h3 h4 h5,
   fun ws lit r h1 h2 h3 h4 => string_ws_elision ws lit r h1 h2 h3 h4,
   fun s r h => string_literal_run s r h⟩

/-- C5 witness: the octal escape `\101` decodes to the byte 65 and a
backslash–whitespace run before `a` is elided entirely. -/
theorem claim_C5_witness :
    octVal ['1', '0', '1'] ≤ 255 ∧
    parse_escaped_char ('\\' :: (['1', '0', '1'] ++ [])) =
      .ok [] (Char.ofNat (octVal ['1', '0', '1'])) ∧
    stringP ('"' :: '\\' :: ((['\n', ' ']) ++ (['a'] ++ '"' :: []))) = .ok [] ['a'] :=
  ⟨by decide,
   claim_C5_string_escapes.2.2.2.1 ['1', '0', '1'] [] (by decide) (by decide)
     (by decide) (Or.inl rfl) (by decide),
   claim_C5_string_escapes.2.2.2.2.1 ['\n', ' '] ['a'] [] (by decide) (by decide)
     (by decide) (fun c hc => by
       simp at hc
       subst hc
       decide)⟩

/-- C6: `\a` parses to a public identifier and `$a` to an autogenerated
one; the two are unequal as tagged values though their inner text agrees,
and erasing the tag gives the bare text `a` for both. -/
theorem claim_C6_id_tags :
    idP (("\\a").toList) = .ok [] (Id.Public ['a']) ∧
    idP (("$a").toList) = .ok [] (Id.Autogen ['a']) ∧
    Id.Public ['a'] ≠ Id.Autogen ['a'] ∧
    (Id.Public ['a']).inner = (Id.Autogen ['a']).inner ∧
    (Id.Public ['a']).erease = ['a'] ∧ (Id.Autogen ['a']).erease = ['a'] :=
  ⟨rfl, rfl, by decide, rfl, rfl, rfl⟩

/-- C7: the text `module \m`, `wire $a`, `end` (newline-terminated) parses
to a design with exactly one module named `m` holding exactly one wire
named `a` with width 1, offset 0 and every flag false. -/
theorem claim_C7_end_to_end :
    parse (("module \\m\nwire $a\nend\n").toList) =
      .ok [] { autoidx := none,
               modules := [(['m'],
                 { attributes := [], parameters := [],
                   wires := [(['a'], Wire.default)],
                   memories := [], cells := [], processes := [],
                   connections := [] })] } := rfl

/-- C8 (amended): after its mandatory newline run the end-of-line token
absorbs comment lines (each `#`-started, taken with its own terminating
newline) and trailing horizontal whitespace, so a comment line behaves
like a single newline; a blank line after a comment line, however, is not
absorbed (see the counterexample). -/
theorem claim_C8_eol_absorption :
    (∀ (cs rest : List Char), (∀ c ∈ cs, (!(c = '\n' || c = '\r')) = true) →
      eolSafeB rest = true →
      eol ('\n' :: ('#' :: (cs ++ ('\n' :: rest)))) = .ok rest ()) ∧
    (∀ (rest : List Char), eolSafeB rest = true →
      eol ('\n' :: rest) = .ok rest ()) :=
  ⟨eol_comment_run, fun rest h => eol_run h⟩

/-- C8 counterexample: a comment line alone is transparent where an
end-of-line is expected, but a blank line following the comment breaks the
parse — so comment-and-blank runs do not always parse like a single
newline. -/
theorem claim_C8_eol_cex :
    parse (("module \\m\n#c\n\nend\n").toList) =
      .err (("module \\m\n#c\n\nend\n").toList) ∧
    parse (("module \\m\n#c\nend\n").toList) =
      .ok [] { autoidx := none,
               modules := [(['m'],
                 { attributes := [], parameters := [], wires := [],
                   memories := [], cells := [], processes := [],
                   connections := [] })] } :=
  ⟨rfl, rfl⟩

/-- C8 witness: a comment line between statements is absorbed by the
end-of-line token exactly like a single newline. -/
theorem claim_C8_witness :
    eol ('\n' :: ('#' :: (['c'] ++ ('\n' :: ['e'])))) = .ok ['e'] () ∧
    eol ('\n' :: ['e']) = .ok ['e'] () :=
  ⟨claim_C8_eol_absorption.1 ['c'] ['e'] (by decide) (by decide),
   claim_C8_eol_absorption.2 ['e'] (by decide)⟩

/-- C9: duplicate names of the same kind — two wires, two cells, two
memories in one module, or two modules in a design — parse successfully
and the keyed container keeps exactly the entry of the last declaration. -/
theorem claim_C9_duplicate_names :
    parse (("module \\m\nwire \\a\nwire width 2 \\a\nend\n").toList) =
      .ok [] { autoidx := none,
               modules := [(['m'],
                 { attributes := [], parameters := [],
                   wires := [(['a'], { Wire.default with width := 2 })],
                   memories := [], cells := [], processes := [],
                   connections := [] })] } ∧
    parse (("module \\m\ncell \\t \\c\nend\ncell \\u \\c\nend\nend\n").toList) =
      .ok [] { autoidx := none,
               modules := [(['m'],
                 { attributes := [], parameters := [], wires := [],
                   memories := [],
                   cells := [(['c'], { cell_type := ['u'], parameters := [], connections := [] })],
                   processes := [], connections := [] })] } ∧
    parse (("module \\m\nmemory \\a\nmemory width 2 \\a\nend\n").toList) =
      .ok [] { autoidx := none,
               modules := [(['m'],
                 { attributes := [], parameters := [], wires := [],
                   memories := [(['a'], { width := 2, size := 0, offset := 0, attributes := [] })],
                   cells := [], processes := [], connections := [] })] } ∧
    parse (("module \\m\nend\nmodule \\m\nwire \\a\nend\n").toList) =
      .ok [] { autoidx := none,
               modules := [(['m'],
                 { attributes := [], parameters := [],
                   wires := [(['a'], Wire.default)],
                   memories := [], cells := [], processes := [],
                   connections := [] })] } :=
  ⟨rfl, rfl, rfl, rfl⟩

/-- C10: the case statement demands a separator after the keyword even when
the compare list is absent — `case` followed directly by a newline fails,
`case ` with the separator succeeds with an absent (`none`) compare list,
which is distinct from an empty one. -/
theorem claim_C10_case_separator :
    case_stmt (("case\n").toList) = .err (("\n").toList) ∧
    case_stmt (("case \n").toList) = .ok [] none ∧
    (none : Option (List SigSpec)) ≠ some [] :=
  ⟨rfl, rfl, fun h => Option.noConfusion h⟩

end Rtlicious
